import Mathlib

/-!
# Verification of the pytat AST rewriting library

A shallow embedding of `pytat/lib.py`: the AST pattern matcher (`match_ast`),
the substitutor (`replace_ast`), the statement line indexer (`StatementIndex`),
the statement-end computation (`ReplacerVisitor._stmt_end`), the rewrite
driver (`ReplacerVisitor` / `TableVisitor`) and the in-place file handling
of `visit_file`.

Python AST nodes are modelled as a tagged kind (the Python class name),
an ordered association list of fields (`ast.iter_fields` order) and an
optional source position `(lineno, col_offset)`.  Field values are nodes,
lists, or scalar constants; a field value of Python `None` is the scalar
`Scalar.none` (Python cannot distinguish an absent merged field from a
`None`-valued one in `_fields_of_2`, which fills missing fields with `None`).
Python exceptions (`ValueError`, `AttributeError`, `KeyError`, failed
`assert`) are modelled with `Except String`; a plain "no match" is
`Except.ok Option.none`, mirroring `return None` in `match_ast`.
-/

namespace Pytat

/-- Scalar constants appearing as AST field values (identifiers, numbers,
`True`/`False`, `None`). -/
inductive Scalar : Type where
  | int : Int → Scalar
  | str : String → Scalar
  | bool : Bool → Scalar
  | none : Scalar
deriving DecidableEq, Repr

mutual
/-- A Python AST node: class name, ordered fields, optional
`(lineno, col_offset)` position attributes. -/
inductive Node : Type where
  | mk : String → List (String × Value) → Option (Int × Int) → Node
deriving Repr

/-- A field value of an AST node: a sub-node, a list, or a scalar. -/
inductive Value : Type where
  | node : Node → Value
  | vlist : List Value → Value
  | scalar : Scalar → Value
deriving Repr
end

mutual
def nodeBeq : Node → Node → Bool
  | .mk k₁ f₁ p₁, .mk k₂ f₂ p₂ => k₁ == k₂ && fieldsBeq f₁ f₂ && p₁ == p₂

def fieldsBeq : List (String × Value) → List (String × Value) → Bool
  | [], [] => true
  | (k₁, v₁) :: r₁, (k₂, v₂) :: r₂ => k₁ == k₂ && valueBeq v₁ v₂ && fieldsBeq r₁ r₂
  | _, _ => false

def valueBeq : Value → Value → Bool
  | .node n₁, .node n₂ => nodeBeq n₁ n₂
  | .vlist l₁, .vlist l₂ => vlistBeq l₁ l₂
  | .scalar s₁, .scalar s₂ => s₁ == s₂
  | _, _ => false

def vlistBeq : List Value → List Value → Bool
  | [], [] => true
  | v₁ :: r₁, v₂ :: r₂ => valueBeq v₁ v₂ && vlistBeq r₁ r₂
  | _, _ => false
end

mutual
theorem nodeBeq_iff : ∀ a b : Node, nodeBeq a b = true ↔ a = b
  | .mk k₁ f₁ p₁, .mk k₂ f₂ p₂ => by
    simp only [nodeBeq, Bool.and_eq_true, beq_iff_eq, Node.mk.injEq]
    rw [fieldsBeq_iff f₁ f₂]
    tauto

theorem fieldsBeq_iff : ∀ a b : List (String × Value), fieldsBeq a b = true ↔ a = b
  | [], [] => by simp [fieldsBeq]
  | (k₁, v₁) :: r₁, (k₂, v₂) :: r₂ => by
    simp only [fieldsBeq, Bool.and_eq_true, beq_iff_eq, List.cons.injEq, Prod.mk.injEq]
    rw [valueBeq_iff v₁ v₂, fieldsBeq_iff r₁ r₂]
    try tauto
  | [], (_, _) :: _ => by simp [fieldsBeq]
  | (_, _) :: _, [] => by simp [fieldsBeq]

theorem valueBeq_iff : ∀ a b : Value, valueBeq a b = true ↔ a = b
  | .node n₁, .node n₂ => by
    simp only [valueBeq, Value.node.injEq]
    exact nodeBeq_iff n₁ n₂
  | .vlist l₁, .vlist l₂ => by
    simp only [valueBeq, Value.vlist.injEq]
    exact vlistBeq_iff l₁ l₂
  | .scalar s₁, .scalar s₂ => by simp [valueBeq]
  | .node _, .vlist _ => by simp [valueBeq]
  | .node _, .scalar _ => by simp [valueBeq]
  | .vlist _, .node _ => by simp [valueBeq]
  | .vlist _, .scalar _ => by simp [valueBeq]
  | .scalar _, .node _ => by simp [valueBeq]
  | .scalar _, .vlist _ => by simp [valueBeq]

theorem vlistBeq_iff : ∀ a b : List Value, vlistBeq a b = true ↔ a = b
  | [], [] => by simp [vlistBeq]
  | v₁ :: r₁, v₂ :: r₂ => by
    simp only [vlistBeq, Bool.and_eq_true, List.cons.injEq]
    rw [valueBeq_iff v₁ v₂, vlistBeq_iff r₁ r₂]
  | [], _ :: _ => by simp [vlistBeq]
  | _ :: _, [] => by simp [vlistBeq]
end

instance : DecidableEq Node := fun a b =>
  decidable_of_iff (nodeBeq a b = true) (nodeBeq_iff a b)

instance : DecidableEq Value := fun a b =>
  decidable_of_iff (valueBeq a b = true) (valueBeq_iff a b)

/-- The class name of a node (`type(node).__name__`). -/
def Node.kind : Node → String
  | .mk k _ _ => k

/-- The ordered field list of a node (`ast.iter_fields`). -/
def Node.fields : Node → List (String × Value)
  | .mk _ fs _ => fs

/-- The optional `(lineno, col_offset)` position attributes. -/
def Node.pos : Node → Option (Int × Int)
  | .mk _ _ p => p

/-- `node.lineno` when present. -/
def Node.lineno (n : Node) : Option Int := n.pos.map (·.1)

/-- `node.col_offset` when present. -/
def Node.col (n : Node) : Option Int := n.pos.map (·.2)

/-- First binding of key `k` in an association list. -/
def lookupFirst (fs : List (String × Value)) (k : String) : Option Value :=
  match fs with
  | [] => none
  | (k', v) :: rest => if k = k' then some v else lookupFirst rest k

/-- `getattr(node, k)` for a field: the first field with name `k`
(real AST nodes never repeat a field name). -/
def getField (n : Node) (k : String) : Option Value :=
  lookupFirst n.fields k

/-- `node.id` of a `Name` node, when the `id` field is a string. -/
def nameIdStr (n : Node) : Option String :=
  match getField n "id" with
  | some (.scalar (.str s)) => some s
  | _ => none

/-- `s.all Char.isDigit && s ≠ ""`: one or more digits. -/
def allDigits (cs : List Char) : Bool :=
  !cs.isEmpty && cs.all Char.isDigit

/-- `simple_re = re.compile(r'_\d+')`, full match: an underscore followed by
one or more digits. -/
def simpleRe (s : String) : Bool :=
  match s.data with
  | '_' :: rest => allDigits rest
  | _ => false

/-- `variadic_re = re.compile(r'__\d+')`, full match: two underscores followed
by one or more digits. -/
def variadicRe (s : String) : Bool :=
  match s.data with
  | '_' :: '_' :: rest => allDigits rest
  | _ => false

/-- A capture map: a Python dict from placeholder name to captured value,
modelled as an association list in insertion order with unique keys. -/
abbrev Captures := List (String × Value)

/-- Python dict assignment `m[k] = v`: overwrite in place if the key is
present, else append. -/
def dinsert (m : Captures) (k : String) (v : Value) : Captures :=
  if m.any (fun p => p.1 = k) then
    m.map (fun p => if p.1 = k then (k, v) else p)
  else m ++ [(k, v)]

/-- Python `m.update(sub)`: assign each binding of `sub` into `m`, in order. -/
def dupdate (m sub : Captures) : Captures :=
  sub.foldl (fun acc p => dinsert acc p.1 p.2) m

/-- Python dict lookup `m[k]` (as an `Option`). -/
def dget (m : Captures) (k : String) : Option Value :=
  lookupFirst m k

/-- `isinstance(el, ast.Name) and variadic_re.fullmatch(el.id)` for a list
element; accessing a missing or non-string `id` raises in Python. -/
def isVariadicEl (v : Value) : Except String Bool :=
  match v with
  | .node n =>
    if n.kind = "Name" then
      match nameIdStr n with
      | some s => .ok (variadicRe s)
      | none => .error "AttributeError: id"
    else .ok false
  | _ => .ok false

def variadicPointAux : List Value → Nat → Option Nat → Except String (Option Nat)
  | [], _, acc => .ok acc
  | el :: rest, i, acc =>
    match isVariadicEl el with
    | .error e => .error e
    | .ok b =>
      if b then
        match acc with
        | some _ => .error "only one variadic argument should be used"
        | none => variadicPointAux rest (i + 1) (some i)
      else variadicPointAux rest (i + 1) acc

/-- `_variadic_point(l)`: index of the unique variadic placeholder in a
list, `none` when there is none (Python returns `-1`); raises `ValueError`
when two are present. -/
def variadicPoint (l : List Value) : Except String (Option Nat) :=
  variadicPointAux l 0 none

/-- Keys of a field list, in order. -/
def keysOf (fs : List (String × Value)) : List String := fs.map (·.1)

/-- First-occurrence deduplication, preserving order (Python dict key
insertion order under `setdefault`). -/
def dedupFirst : List String → List String
  | [] => []
  | k :: rest => k :: dedupFirst (rest.filter (fun x => x ≠ k))
termination_by l => l.length
decreasing_by
  exact Nat.lt_succ_of_le (List.length_filter_le _ _)

/-- Last binding of key `k` in a field list (Python dict construction by
repeated assignment keeps the last value per key). -/
def lookupLast (fs : List (String × Value)) (k : String) : Option Value :=
  match fs with
  | [] => none
  | (k', v) :: rest =>
    match lookupLast rest k with
    | some w => some w
    | none => if k = k' then some v else none

/-- `_fields_of_2(a, b)`: the merged field dict of two nodes, key order
being first occurrence over `a`'s keys then `b`'s, each side's missing
value being `None` (`Scalar.none`). -/
def fieldsOf2 (a b : Node) : List (String × Value × Value) :=
  (dedupFirst (keysOf a.fields ++ keysOf b.fields)).map fun k =>
    (k, (lookupLast a.fields k).getD (.scalar .none),
        (lookupLast b.fields k).getD (.scalar .none))

/-! ## Size lemmas used for termination of the matcher -/

theorem one_le_sizeOf_list {α : Type} [SizeOf α] (l : List α) : 1 ≤ sizeOf l := by
  cases l <;> simp <;> omega

theorem one_le_sizeOf_option {α : Type} [SizeOf α] (o : Option α) : 1 ≤ sizeOf o := by
  cases o <;> simp

theorem sizeOf_fields_lt (n : Node) : sizeOf n.fields < sizeOf n := by
  cases n with
  | mk k fs p =>
    have h1 := one_le_sizeOf_option p
    simp only [Node.fields, Node.mk.sizeOf_spec]
    omega

theorem sizeOf_of_mem_fields {k : String} {v : Value} {n : Node}
    (h : (k, v) ∈ n.fields) : sizeOf v < sizeOf n := by
  have h1 := List.sizeOf_lt_of_mem h
  have h2 : sizeOf (k, v) = 1 + sizeOf k + sizeOf v := rfl
  have h3 := sizeOf_fields_lt n
  omega

theorem lookupLast_mem {fs : List (String × Value)} {k : String} {v : Value}
    (h : lookupLast fs k = some v) : (k, v) ∈ fs := by
  induction fs with
  | nil => simp [lookupLast] at h
  | cons hd tl ih =>
    obtain ⟨k', v'⟩ := hd
    simp only [lookupLast] at h
    cases hll : lookupLast tl k with
    | some w =>
      rw [hll] at h
      cases h
      exact List.mem_cons_of_mem _ (ih hll)
    | none =>
      rw [hll] at h
      by_cases hk : k = k'
      · simp only [hk, if_pos rfl] at h
        cases h
        subst hk
        exact List.mem_cons_self _ _
      · simp [hk] at h

theorem lookupFirst_mem {fs : List (String × Value)} {k : String} {v : Value}
    (h : lookupFirst fs k = some v) : (k, v) ∈ fs := by
  induction fs with
  | nil => simp [lookupFirst] at h
  | cons hd tl ih =>
    obtain ⟨k', v'⟩ := hd
    simp only [lookupFirst] at h
    by_cases hk : k = k'
    · rw [if_pos hk] at h
      cases h
      subst hk
      exact List.mem_cons_self _ _
    · rw [if_neg hk] at h
      exact List.mem_cons_of_mem _ (ih h)

theorem sizeOf_getField {n : Node} {k : String} {v : Value}
    (h : getField n k = some v) : sizeOf v < sizeOf n :=
  sizeOf_of_mem_fields (lookupFirst_mem h)

theorem two_lt_sizeOf_node (n : Node) : 2 < sizeOf n := by
  cases n with
  | mk k fs p =>
    have h1 := one_le_sizeOf_list fs
    have h2 := one_le_sizeOf_option p
    simp only [Node.mk.sizeOf_spec]
    have : 0 ≤ sizeOf k := by omega
    omega

theorem sizeOf_expected_fieldsOf2 (a b : Node) :
    ∀ x ∈ fieldsOf2 a b, sizeOf x.2.1 < sizeOf a := by
  intro x hx
  simp only [fieldsOf2, List.mem_map] at hx
  obtain ⟨k, _, rfl⟩ := hx
  simp only
  cases hll : lookupLast a.fields k with
  | none =>
    simp only [hll, Option.getD_none]
    have := two_lt_sizeOf_node a
    simp only [Value.scalar.sizeOf_spec, Scalar.none.sizeOf_spec]
    omega
  | some v =>
    simp only [hll, Option.getD_some]
    exact sizeOf_of_mem_fields (lookupLast_mem hll)

theorem sizeOf_lt_of_mem_vlist {x : Value} {l : List Value} (hx : x ∈ l) {e : Node}
    (h : sizeOf (Value.vlist l) < sizeOf e) : sizeOf x < sizeOf e := by
  have h1 := List.sizeOf_lt_of_mem hx
  have h2 : sizeOf (Value.vlist l) = 1 + sizeOf l := by
    simp [Value.vlist.sizeOf_spec]
  omega

theorem sizeOf_node_lt_of_value {n : Node} {e : Node}
    (h : sizeOf (Value.node n) < sizeOf e) : sizeOf n < sizeOf e := by
  have h2 : sizeOf (Value.node n) = 1 + sizeOf n := by
    simp [Value.node.sizeOf_spec]
  omega

/-! ## The matcher -/

/-- `type(a) == type(b)` for raw scalar Python values. -/
def scalarTypeEq : Scalar → Scalar → Bool
  | .int _, .int _ => true
  | .str _, .str _ => true
  | .bool _, .bool _ => true
  | .none, .none => true
  | _, _ => false

/-- `match_ast(expected, test)` when `expected` is a raw list or scalar
(possible only for degenerate patterns, e.g. a non-node `Attribute.value`):
Python compares `type(expected) != type(test)` and, on equal types, crashes
in `ast.iter_fields` since raw values have no `_fields`. -/
def matchRaw (x w : Value) : Except String (Option Captures) :=
  match x, w with
  | .vlist _, .vlist _ => .error "AttributeError: _fields"
  | .scalar a, .scalar b =>
    if scalarTypeEq a b then .error "AttributeError: _fields" else .ok none
  | _, _ => .ok none

mutual

/-- `match_ast(expected, test)` (`lib.py` lines 249-326).  `Except.ok none`
is Python's `return None` ("nodes don't match"); `Except.error` models a
raised exception; on success the capture dict is returned in insertion
order. -/
def matchAst (e : Node) (t : Value) : Except String (Option Captures) :=
  if e.kind = "Name" then
    match nameIdStr e with
    | none => .error "AttributeError: id"
    | some s => if simpleRe s then .ok (some [(s, t)]) else matchKind e t
  else matchKind e t
termination_by (sizeOf e, 3, 0)

/-- `match_ast` from the `type(expected) != type(test)` check onwards. -/
def matchKind (e : Node) (t : Value) : Except String (Option Captures) :=
  match t with
  | .node tn =>
    if e.kind ≠ tn.kind then .ok none
    else if e.kind = "Attribute" then
      match getField e "attr" with
      | some (.scalar (.str s)) =>
        if simpleRe s then
          match getField tn "attr" with
          | none => .error "AttributeError: attr"
          | some w =>
            match hev : getField e "value" with
            | none => .error "AttributeError: value"
            | some ev =>
              match getField tn "value" with
              | none => .error "AttributeError: value"
              | some tv =>
                match hevn : ev with
                | .node pv =>
                  match matchAst pv tv with
                  | .error err => .error err
                  | .ok none => .ok none
                  | .ok (some sub) => .ok (some (dupdate [(s, w)] sub))
                | .vlist l =>
                  match matchRaw (.vlist l) tv with
                  | .error err => .error err
                  | .ok none => .ok none
                  | .ok (some sub) => .ok (some (dupdate [(s, w)] sub))
                | .scalar sc =>
                  match matchRaw (.scalar sc) tv with
                  | .error err => .error err
                  | .ok none => .ok none
                  | .ok (some sub) => .ok (some (dupdate [(s, w)] sub))
        else
          matchFields e (fieldsOf2 e tn) [] (sizeOf_expected_fieldsOf2 e tn)
      | some _ => .error "TypeError: fullmatch expects a string"
      | none => .error "AttributeError: attr"
    else
      matchFields e (fieldsOf2 e tn) [] (sizeOf_expected_fieldsOf2 e tn)
  | _ => .ok none
termination_by (sizeOf e, 2, 0)
decreasing_by all_goals
  first
  | decreasing_tactic
  | (simp_wf
     have h1 := sizeOf_getField hev
     have h2 : sizeOf (Value.node pv) = 1 + sizeOf pv := by simp [Value.node.sizeOf_spec]
     exact Prod.Lex.left _ _ (by omega))

/-- The field loop of `match_ast` (lines 271-326), threading the `ret` dict.
`e` and `h` only bound the recursion; they do not influence the result. -/
def matchFields (e : Node) (fps : List (String × Value × Value)) (acc : Captures)
    (h : ∀ x ∈ fps, sizeOf x.2.1 < sizeOf e) : Except String (Option Captures) :=
  match fps with
  | [] => .ok (some acc)
  | (k, ve, vt) :: rest =>
    match ve with
    | .vlist l =>
      match vt with
      | .vlist tl =>
        match variadicPoint l with
        | .error err => .error err
        | .ok none =>
          if l.length ≠ tl.length then .ok none
          else
            match matchZip e (l.zip tl) acc
                (fun x hx => sizeOf_lt_of_mem_vlist ((List.of_mem_zip hx).1)
                  (h _ (List.mem_cons_self _ _))) with
            | .error err => .error err
            | .ok none => .ok none
            | .ok (some acc') =>
              matchFields e rest acc' (fun x hx => h x (List.mem_cons_of_mem _ hx))
        | .ok (some p) =>
          if l.length > tl.length then .ok none
          else
            match matchZip e ((l.take p).zip (tl.take p)) acc
                (fun x hx => sizeOf_lt_of_mem_vlist
                  (List.take_subset _ _ ((List.of_mem_zip hx).1))
                  (h _ (List.mem_cons_self _ _))) with
            | .error err => .error err
            | .ok none => .ok none
            | .ok (some acc1) =>
              match l[p]? with
              | none => .error "IndexError"
              | some (.node vpn) =>
                match nameIdStr vpn with
                | none => .error "AttributeError: id"
                | some ph =>
                  let vlen := tl.length - l.length + 1
                  let acc2 := dinsert acc1 ph (.vlist ((tl.drop p).take vlen))
                  match matchZip e ((l.drop (p + 1)).zip (tl.drop (p + vlen))) acc2
                      (fun x hx => sizeOf_lt_of_mem_vlist
                        (List.drop_subset _ _ ((List.of_mem_zip hx).1))
                        (h _ (List.mem_cons_self _ _))) with
                  | .error err => .error err
                  | .ok none => .ok none
                  | .ok (some acc3) =>
                    matchFields e rest acc3 (fun x hx => h x (List.mem_cons_of_mem _ hx))
              | some _ => .error "AttributeError: id"
      | _ => .ok none
    | .node n =>
      match matchAst n vt with
      | .error err => .error err
      | .ok none => .ok none
      | .ok (some sub) =>
        matchFields e rest (dupdate acc sub) (fun x hx => h x (List.mem_cons_of_mem _ hx))
    | .scalar s =>
      if vt = .scalar s then
        matchFields e rest acc (fun x hx => h x (List.mem_cons_of_mem _ hx))
      else .ok none
termination_by (sizeOf e, 1, fps.length)
decreasing_by all_goals
  first
  | decreasing_tactic
  | (simp_wf
     have h1 : sizeOf (Value.node n) < sizeOf e := h _ (List.mem_cons_self _ _)
     have h2 : sizeOf (Value.node n) = 1 + sizeOf n := by simp [Value.node.sizeOf_spec]
     exact Prod.Lex.left _ _ (by omega))

/-- `for vve, vvt in zip(...): sub = match_ast(vve, vvt); ...; ret.update(sub)`. -/
def matchZip (e : Node) (ps : List (Value × Value)) (acc : Captures)
    (h : ∀ x ∈ ps, sizeOf x.1 < sizeOf e) : Except String (Option Captures) :=
  match ps with
  | [] => .ok (some acc)
  | (vve, vvt) :: rest =>
    match vve with
    | .node n =>
      match matchAst n vvt with
      | .error err => .error err
      | .ok none => .ok none
      | .ok (some sub) =>
        matchZip e rest (dupdate acc sub) (fun x hx => h x (List.mem_cons_of_mem _ hx))
    | .vlist l =>
      match matchRaw (.vlist l) vvt with
      | .error err => .error err
      | .ok none => .ok none
      | .ok (some sub) =>
        matchZip e rest (dupdate acc sub) (fun x hx => h x (List.mem_cons_of_mem _ hx))
    | .scalar sc =>
      match matchRaw (.scalar sc) vvt with
      | .error err => .error err
      | .ok none => .ok none
      | .ok (some sub) =>
        matchZip e rest (dupdate acc sub) (fun x hx => h x (List.mem_cons_of_mem _ hx))
termination_by (sizeOf e, 0, ps.length)
decreasing_by all_goals
  first
  | decreasing_tactic
  | (simp_wf
     have h1 : sizeOf (Value.node n) < sizeOf e := h _ (List.mem_cons_self _ _)
     have h2 : sizeOf (Value.node n) = 1 + sizeOf n := by simp [Value.node.sizeOf_spec]
     exact Prod.Lex.left _ _ (by omega))

end

/-- Clean unfolding of `matchKind` (the definition carries equation
annotations for termination which hinder rewriting). -/
theorem matchKind_eq (e : Node) (t : Value) :
    matchKind e t =
      match t with
      | .node tn =>
        if e.kind ≠ tn.kind then .ok none
        else if e.kind = "Attribute" then
          match getField e "attr" with
          | some (.scalar (.str s)) =>
            if simpleRe s then
              match getField tn "attr" with
              | none => .error "AttributeError: attr"
              | some w =>
                match getField e "value" with
                | none => .error "AttributeError: value"
                | some ev =>
                  match getField tn "value" with
                  | none => .error "AttributeError: value"
                  | some tv =>
                    match (match ev with
                           | .node pv => matchAst pv tv
                           | .vlist l => matchRaw (.vlist l) tv
                           | .scalar sc => matchRaw (.scalar sc) tv) with
                    | .error err => .error err
                    | .ok none => .ok none
                    | .ok (some sub) => .ok (some (dupdate [(s, w)] sub))
            else matchFields e (fieldsOf2 e tn) [] (sizeOf_expected_fieldsOf2 e tn)
          | some _ => .error "TypeError: fullmatch expects a string"
          | none => .error "AttributeError: attr"
        else matchFields e (fieldsOf2 e tn) [] (sizeOf_expected_fieldsOf2 e tn)
      | _ => .ok none := by
  unfold matchKind
  cases t with
  | vlist l => rfl
  | scalar s => rfl
  | node tn =>
    dsimp only
    by_cases h1 : e.kind ≠ tn.kind
    · rw [if_pos h1, if_pos h1]
    · rw [if_neg h1, if_neg h1]
      by_cases h2 : e.kind = "Attribute"
      · rw [if_pos h2, if_pos h2]
        cases hat : getField e "attr" with
        | none => rfl
        | some av =>
          cases av with
          | node nn => rfl
          | vlist ll => rfl
          | scalar sc =>
            cases sc with
            | int i => rfl
            | bool b => rfl
            | none => rfl
            | str s =>
              dsimp only
              by_cases h3 : simpleRe s
              · rw [if_pos h3, if_pos h3]
                cases getField tn "attr" with
                | none => rfl
                | some w =>
                  split
                  · rfl
                  · rename_i ev hev
                    injection hev with hw
                    subst hw
                    split
                    · rename_i hev2
                      rw [hev2]
                    · rename_i ev2 hev2
                      conv_rhs => rw [hev2]
                      cases getField tn "value" with
                      | none => rfl
                      | some tv =>
                        cases ev2 with
                        | node pv => rfl
                        | vlist l2 => rfl
                        | scalar sc2 => rfl
              · rw [if_neg h3, if_neg h3]
      · rw [if_neg h2, if_neg h2]

/-! ## The substitutor (`replace_ast`) -/

/-- `is_simple_expr(node)`: a `Name` node whose `id` is a simple
placeholder; accessing a missing or non-string `id` raises in Python. -/
def isSimpleExpr (v : Value) : Except String Bool :=
  match v with
  | .node n =>
    if n.kind = "Name" then
      match nameIdStr n with
      | some s => .ok (simpleRe s)
      | none => .error "AttributeError: id"
    else .ok false
  | _ => .ok false

/-- Python dict lookup `m[k]`, raising `KeyError` when absent. -/
def dgetE (m : Captures) (k : String) : Except String Value :=
  match dget m k with
  | some v => .ok v
  | none => .error "KeyError"

/-- `setattr(n, k, w)` for a field already present on the node. -/
def setField (n : Node) (k : String) (w : Value) : Node :=
  match n with
  | .mk kd fs p => .mk kd (fs.map (fun q => if q.1 = k then (q.1, w) else q)) p

/-- Python slice assignment `l[p:p+1] = w`: splices in a list (or the
characters of a string); other values are not iterable and raise. -/
def spliceList (l : List Value) (p : Nat) (w : Value) : Except String (List Value) :=
  match w with
  | .vlist ws => .ok (l.take p ++ ws ++ l.drop (p + 1))
  | .scalar (.str s) =>
    .ok (l.take p ++ s.data.map (fun c => Value.scalar (.str (String.mk [c]))) ++ l.drop (p + 1))
  | _ => .error "TypeError: can only assign an iterable"

mutual

/-- `replace_ast(repl, captures)` (`lib.py` lines 341-356), as a pure
function from the template to the mutated template. -/
def replaceAst (repl : Node) (captures : Captures) : Except String Node :=
  match repl with
  | .mk kd fs p =>
    match replaceFields fs captures with
    | .error e => .error e
    | .ok fs' => .ok (.mk kd fs' p)
termination_by sizeOf repl

/-- The field loop of `replace_ast`. -/
def replaceFields (fs : List (String × Value)) (captures : Captures) :
    Except String (List (String × Value)) :=
  match fs with
  | [] => .ok []
  | (fe, ve) :: rest =>
    match ve with
    | .vlist l =>
      match variadicPoint l with
      | .error e => .error e
      | .ok vp =>
        match replaceList l captures with
        | .error e => .error e
        | .ok l1 =>
          match vp with
          | none =>
            match replaceFields rest captures with
            | .error e => .error e
            | .ok rest' => .ok ((fe, .vlist l1) :: rest')
          | some p =>
            match l1[p]? with
            | some (.node vpn) =>
              match nameIdStr vpn with
              | none => .error "AttributeError: id"
              | some ph =>
                match dgetE captures ph with
                | .error e => .error e
                | .ok w =>
                  match spliceList l1 p w with
                  | .error e => .error e
                  | .ok l2 =>
                    match replaceFields rest captures with
                    | .error e => .error e
                    | .ok rest' => .ok ((fe, .vlist l2) :: rest')
            | some _ => .error "AttributeError: id"
            | none => .error "IndexError"
    | .node n =>
      match isSimpleExpr (.node n) with
      | .error e => .error e
      | .ok true =>
        match nameIdStr n with
        | none => .error "AttributeError: id"
        | some s =>
          match dgetE captures s with
          | .error e => .error e
          | .ok w =>
            match replaceFields rest captures with
            | .error e => .error e
            | .ok rest' => .ok ((fe, w) :: rest')
      | .ok false =>
        if n.kind = "Attribute" then
          match getField n "attr" with
          | some (.scalar (.str s)) =>
            if simpleRe s then
              match dgetE captures s with
              | .error e => .error e
              | .ok w =>
                match replaceFields rest captures with
                | .error e => .error e
                | .ok rest' => .ok ((fe, .node (setField n "attr" w)) :: rest')
            else
              match replaceAst n captures with
              | .error e => .error e
              | .ok n' =>
                match replaceFields rest captures with
                | .error e => .error e
                | .ok rest' => .ok ((fe, .node n') :: rest')
          | some _ => .error "TypeError: fullmatch expects a string"
          | none => .error "AttributeError: attr"
        else
          match replaceAst n captures with
          | .error e => .error e
          | .ok n' =>
            match replaceFields rest captures with
            | .error e => .error e
            | .ok rest' => .ok ((fe, .node n') :: rest')
    | .scalar s =>
      match replaceFields rest captures with
      | .error e => .error e
      | .ok rest' => .ok ((fe, .scalar s) :: rest')
termination_by sizeOf fs

/-- `_replace_ast_list(ve, captures)` (lines 333-338): replace simple
placeholder elements by their captured value, recurse into the others. -/
def replaceList (l : List Value) (captures : Captures) : Except String (List Value) :=
  match l with
  | [] => .ok []
  | vve :: rest =>
    match isSimpleExpr vve with
    | .error e => .error e
    | .ok true =>
      match vve with
      | .node n =>
        match nameIdStr n with
        | none => .error "AttributeError: id"
        | some s =>
          match dgetE captures s with
          | .error e => .error e
          | .ok w =>
            match replaceList rest captures with
            | .error e => .error e
            | .ok rest' => .ok (w :: rest')
      | _ => .error "AttributeError: id"
    | .ok false =>
      match vve with
      | .node n =>
        match replaceAst n captures with
        | .error e => .error e
        | .ok n' =>
          match replaceList rest captures with
          | .error e => .error e
          | .ok rest' => .ok (.node n' :: rest')
      | _ => .error "AttributeError: _fields"
termination_by sizeOf l

end

/-! ## Concrete node constructors used in examples and witnesses -/

/-- A `Name` node with the given identifier. -/
def nameNode (s : String) : Node := .mk "Name" [("id", .scalar (.str s))] none

/-- An integer literal node. -/
def numNode (i : Int) : Node := .mk "Num" [("n", .scalar (.int i))] none

/-- A list display node `[elts]`. -/
def listNode (elts : List Value) : Node := .mk "List" [("elts", .vlist elts)] none

/-- A call node `f(args)`. -/
def callNode (f : Node) (args : List Value) : Node :=
  .mk "Call" [("func", .node f), ("args", .vlist args), ("keywords", .vlist [])] none

/-! ## The statement-end computation (`_stmt_end`) -/

/-- `str.strip()` on a source line. -/
def pyStrip (s : String) : String := s.trim

/-- Full match of `blank_comments = re.compile(r'|#.*')` on a stripped
line: empty, or `#` followed by non-newline characters. -/
def isBlankOrComment (s : String) : Bool :=
  s.isEmpty || (s.data.headD ' ' = '#' && !(s.data.drop 1).contains '\n')

/-- `linecache.getline(fn, i)`: 1-based line access, the line including its
newline, `""` out of range.  A file is a list of line contents (without
the terminating newline); the file is assumed newline-terminated. -/
def getline (file : List String) (i : Int) : String :=
  if 1 ≤ i ∧ i ≤ file.length then (file.getD (i - 1).toNat "") ++ "\n" else ""

/-- `bisect.bisect_right(xs, x)` for a sorted sequence: the number of
elements that are `≤ x`. -/
def bisectRight (xs : List Int) (x : Int) : Nat := xs.countP (fun y => y ≤ x)

/-- The backward scan of `_stmt_end`: from `i` down to `stop`, return the
first line that is not blank/comment-only, or `stop` when all are.
(The Python `for i in range(...)` loop with a `break`.) -/
def scanBack (file : List String) (i stop : Int) : Int :=
  if i ≤ stop then i
  else if !isBlankOrComment (pyStrip (getline file i)) then i
  else scanBack file (i - 1) stop
termination_by (i - stop).toNat
decreasing_by omega

/-- `ReplacerVisitor._stmt_end` (lines 163-180): the end line of the
statement block whose pre-pass `last_lineno` is `lastLineno`.  The
`IndexError` handler for a missing next statement line is the `none`
branch, returning `lastLineno` itself. -/
def stmtEnd (file : List String) (stmtLines : List Int) (lastLineno : Int) : Int :=
  let index := bisectRight stmtLines lastLineno
  match stmtLines[index]? with
  | none => lastLineno
  | some nxt => scanBack file (nxt - 1) lastLineno

/-! ## The statement line indexer (`StatementIndex`) -/

mutual

/-- `StatementIndex.generic_visit` on a node that has a `lineno`: the
`last_lineno` the pre-pass stores, i.e. the running maximum of the node's
own line and `_get_last_lineno` of every child node reached through a
direct field or a list field, in field order. -/
def nodeLastLineno (n : Node) : Int :=
  llFields ((n.lineno).getD (-1)) n.fields
termination_by (sizeOf n, 0)
decreasing_by
  exact Prod.Lex.left _ _ (sizeOf_fields_lt n)

/-- The field loop of `generic_visit`, threading the running maximum. -/
def llFields (cur : Int) (fs : List (String × Value)) : Int :=
  match fs with
  | [] => cur
  | (_, v) :: rest =>
    match v with
    | .vlist l => llFields (llList cur l) rest
    | .node sub => llFields (max cur (getLastOf sub)) rest
    | .scalar _ => llFields cur rest
termination_by (sizeOf fs, 0)

/-- The inner list loop of `generic_visit` (non-node elements skipped). -/
def llList (cur : Int) (l : List Value) : Int :=
  match l with
  | [] => cur
  | v :: rest =>
    match v with
    | .node sub => llList (max cur (getLastOf sub)) rest
    | _ => llList cur rest
termination_by (sizeOf l, 0)

/-- `self.visit(sub)` followed by `_get_last_lineno(sub)`: `Module` is
dispatched to `visit_Module` (which stores nothing), `generic_visit`
returns early when `sub` has no `lineno`; the fallback chain is then
`last_lineno`, `lineno`, `-1`. -/
def getLastOf (n : Node) : Int :=
  if n.kind = "Module" then (n.lineno).getD (-1)
  else
    match n.lineno with
    | some _ => nodeLastLineno n
    | none => -1
termination_by (sizeOf n, 1)

end

/-- The child nodes reached through a direct field or a list field of a
field list, in traversal order. -/
def childFs (fs : List (String × Value)) : List Node :=
  fs.foldr
    (fun kv acc =>
      match kv.2 with
      | .node sub => sub :: acc
      | .vlist l =>
        (l.filterMap (fun v => match v with | .node s => some s | _ => none)) ++ acc
      | .scalar _ => acc) []

/-- The child nodes reached by `generic_visit` through a direct field or a
list field, in traversal order. -/
def childNodes (n : Node) : List Node := childFs n.fields

/-! ## Claim C7: simple placeholders capture type-agnostically -/

/-- C7: matching any expected node that is a simple placeholder (a `Name`
whose `id` matches `_<digits>`) against any test value succeeds
unconditionally, binding the placeholder name to the entire test value;
no kind comparison is performed first (the test may be of any kind, or
not even a node). -/
theorem matchAst_simple_placeholder (e : Node) (t : Value) (s : String)
    (hk : e.kind = "Name") (hid : nameIdStr e = some s) (hs : simpleRe s = true) :
    matchAst e t = .ok (some [(s, t)]) := by
  unfold matchAst
  simp [hk, hid, hs]

/-- Witness for C7: the placeholder `_1` matched against the statement-like
node `Module` (and in fact a node of any kind) captures it whole. -/
theorem matchAst_simple_placeholder_witness :
    matchAst (nameNode "_1") (.node (Node.mk "Module" [] none)) =
      .ok (some [("_1", .node (Node.mk "Module" [] none))]) :=
  matchAst_simple_placeholder (nameNode "_1") (.node (Node.mk "Module" [] none)) "_1"
    (by rfl) (by rfl) (by decide)

/-! ## Claim C9: duplicate placeholder bindings are silently overwritten -/

/-- A pattern using the same simple placeholder `_1` at two positions. -/
def dupPat : Node := callNode (nameNode "f") [.node (nameNode "_1"), .node (nameNode "_1")]

/-- A test call whose two arguments differ. -/
def dupTest : Node := callNode (nameNode "f") [.node (numNode 1), .node (numNode 2)]

/-- C9: matching a pattern in which `_1` occurs twice against a test node
whose corresponding subtrees differ still succeeds, and the returned
capture map binds `_1` to the later-processed occurrence (the second
argument `2`): `ret.update(sub)` silently overwrites, no consistency
check is made. -/
theorem matchAst_duplicate_placeholder_overwrites :
    matchAst dupPat (.node dupTest) = .ok (some [("_1", .node (numNode 2))]) ∧
      (Value.node (numNode 1) : Value) ≠ .node (numNode 2) := by
  constructor
  · simp [matchAst, matchKind, matchFields, matchZip, dupPat, dupTest, callNode, nameNode,
      numNode, nameIdStr, getField, Node.kind, Node.fields, simpleRe, allDigits, fieldsOf2,
      keysOf, dedupFirst, lookupLast, variadicPoint, variadicPointAux, isVariadicEl,
      variadicRe, lookupFirst, List.filter, dupdate, dinsert]
  · simp [numNode]

/-! ## Claim C2: two variadic placeholders in one list -/

/-- A pattern list field containing two variadic placeholders. -/
def twoVarPat : Node := listNode [.node (nameNode "__1"), .node (nameNode "__2")]

/-- Counterexample to C2: constructing `twoVarPat` is an ordinary data
construction and errors nowhere; the `ValueError` of `_variadic_point` is
raised only inside this `match_ast` call, i.e. during a match attempt —
not at pattern-construction time as the claim states. -/
theorem two_variadics_error_is_match_time :
    matchAst twoVarPat (.node (listNode [])) =
      .error "only one variadic argument should be used" := by
  simp [matchAst, matchKind, matchFields, matchZip, twoVarPat, listNode, nameNode,
    nameIdStr, getField, Node.kind, Node.fields, simpleRe, allDigits, fieldsOf2,
    keysOf, dedupFirst, lookupLast, variadicPoint, variadicPointAux, isVariadicEl,
    variadicRe, lookupFirst, List.filter]

/-- `_variadic_point`'s per-element test, as a boolean: the element is a
`Name` whose `id` matches `__<digits>`. -/
def isVarOk (v : Value) : Bool :=
  match isVariadicEl v with
  | .ok true => true
  | _ => false

theorem variadicPointAux_two_error (l : List Value) :
    ∀ acc : Option Nat, ∀ i : Nat, (∀ v ∈ l, (isVariadicEl v).isOk = true) →
      ((acc.isSome ∧ 1 ≤ l.countP isVarOk) ∨ 2 ≤ l.countP isVarOk) →
      variadicPointAux l i acc = .error "only one variadic argument should be used" := by
  induction l with
  | nil =>
    intro acc i _ hc
    simp [List.countP_nil] at hc
  | cons v rest ih =>
    intro acc i hok hc
    have hokr : ∀ w ∈ rest, (isVariadicEl w).isOk = true :=
      fun w hw => hok w (List.mem_cons_of_mem _ hw)
    cases hvv : isVariadicEl v with
    | error e =>
      have := hok v (List.mem_cons_self _ _)
      simp [hvv, Except.isOk, Except.toBool] at this
    | ok b =>
      cases b with
      | true =>
        cases acc with
        | some j => simp [variadicPointAux, hvv]
        | none =>
          have hcv : isVarOk v = true := by simp [isVarOk, hvv]
          have hrw : (if isVarOk v = true then 1 else 0) = 1 := by simp [hcv]
          simp only [List.countP_cons, hrw, Option.isSome_none, Bool.false_eq_true,
            false_and, false_or] at hc
          have h1 : 1 ≤ rest.countP isVarOk := by omega
          simp only [variadicPointAux, hvv, if_pos rfl]
          exact ih (some i) (i + 1) hokr (Or.inl ⟨rfl, h1⟩)
      | false =>
        have hcv : isVarOk v = false := by simp [isVarOk, hvv]
        have hrw : (if isVarOk v = true then 1 else 0) = 0 := by simp [hcv]
        simp only [List.countP_cons, hrw, Nat.add_zero] at hc
        simp only [variadicPointAux, hvv]
        rw [if_neg (by simp)]
        exact ih acc (i + 1) hokr hc

/-- C2 (amended): a list containing two variadic placeholders is not
rejected when the pattern is constructed (patterns are plain parsed data);
instead `_variadic_point` raises the fatal
`ValueError('only one variadic argument should be used')` during the match
attempt that first examines this list. -/
theorem variadicPoint_two_variadics_error (l : List Value)
    (hok : ∀ v ∈ l, (isVariadicEl v).isOk = true)
    (hcnt : 2 ≤ l.countP isVarOk) :
    variadicPoint l = .error "only one variadic argument should be used" := by
  unfold variadicPoint
  exact variadicPointAux_two_error l none 0 hok (Or.inr hcnt)

/-- Witness for the amended C2 on the concrete two-variadic list. -/
theorem variadicPoint_two_variadics_error_witness :
    variadicPoint [.node (nameNode "__1"), .node (nameNode "__2")] =
      .error "only one variadic argument should be used" :=
  variadicPoint_two_variadics_error _ (by decide) (by decide)

/-! ## Claim C6: statement end at end of file -/

/-- C6: when no statement-start line is strictly greater than the closing
statement's `last_lineno` (the statement is the last of the file),
`_stmt_end` hits the `IndexError` handler (the `none` branch of the model)
and returns `last_lineno` itself; no error is raised. -/
theorem stmtEnd_no_next_statement (file : List String) (stmtLines : List Int)
    (lastLineno : Int) (h : ∀ y ∈ stmtLines, y ≤ lastLineno) :
    stmtEnd file stmtLines lastLineno = lastLineno := by
  unfold stmtEnd bisectRight
  have hcnt : stmtLines.countP (fun y => decide (y ≤ lastLineno)) = stmtLines.length := by
    apply List.countP_eq_length.mpr
    intro a ha
    simpa using h a ha
  have hnone : stmtLines[stmtLines.length]? = none :=
    List.getElem?_eq_none (le_refl _)
  simp only [hcnt, hnone]

/-- Witness for C6 on a one-statement file. -/
theorem stmtEnd_no_next_statement_witness :
    stmtEnd ["x = 1"] [1] 1 = 1 :=
  stmtEnd_no_next_statement ["x = 1"] [1] 1 (by decide)

/-! ## Claim C8: the pre-pass `last_lineno` invariant -/

theorem llList_eq_foldl (l : List Value) (cur : Int) :
    llList cur l =
      (l.filterMap (fun v => match v with | .node s => some s | _ => none)).foldl
        (fun c sub => max c (getLastOf sub)) cur := by
  induction l generalizing cur with
  | nil => simp [llList]
  | cons v rest ih =>
    cases v with
    | node s => simp [llList, List.filterMap_cons, ih]
    | vlist l' => simp [llList, List.filterMap_cons, ih]
    | scalar sc => simp [llList, List.filterMap_cons, ih]

theorem llFields_eq_foldl (fs : List (String × Value)) (cur : Int) :
    llFields cur fs = (childFs fs).foldl (fun c sub => max c (getLastOf sub)) cur := by
  induction fs generalizing cur with
  | nil => simp [llFields, childFs]
  | cons kv rest ih =>
    obtain ⟨k, v⟩ := kv
    cases v with
    | node sub => simp [llFields, childFs, List.foldr_cons, ih]
    | vlist l =>
      simp only [llFields, childFs, List.foldr_cons]
      rw [ih, llList_eq_foldl, List.foldl_append]
      rfl
    | scalar sc => simp [llFields, childFs, List.foldr_cons, ih]

theorem foldl_max_init_le (g : Node → Int) (l : List Node) (c : Int) :
    c ≤ l.foldl (fun a b => max a (g b)) c := by
  induction l generalizing c with
  | nil => exact le_refl c
  | cons hd tl ih => exact le_trans (le_max_left c (g hd)) (ih (max c (g hd)))

theorem foldl_max_mem_le (g : Node → Int) (l : List Node) (c : Int) :
    ∀ x ∈ l, g x ≤ l.foldl (fun a b => max a (g b)) c := by
  induction l generalizing c with
  | nil => intro x hx; simp at hx
  | cons hd tl ih =>
    intro x hx
    rcases List.mem_cons.mp hx with h | h
    · subst h
      exact le_trans (le_max_right c (g x)) (foldl_max_init_le g tl (max c (g x)))
    · exact ih (max c (g hd)) x h

theorem foldl_max_eq_init_or_mem (g : Node → Int) (l : List Node) (c : Int) :
    l.foldl (fun a b => max a (g b)) c = c ∨
      ∃ x ∈ l, l.foldl (fun a b => max a (g b)) c = g x := by
  induction l generalizing c with
  | nil => exact Or.inl rfl
  | cons hd tl ih =>
    rcases ih (max c (g hd)) with h | ⟨x, hx, hfx⟩
    · rcases max_choice c (g hd) with hm | hm
      · left
        simpa [hm] using h
      · right
        exact ⟨hd, List.mem_cons_self _ _, by simpa [hm] using h⟩
    · right
      exact ⟨x, List.mem_cons_of_mem _ hx, hfx⟩

/-- C8: after the `StatementIndex` pre-pass, every node having a source
line (so a computed `last_lineno`) satisfies `last_lineno >= lineno`, and
`last_lineno` is exactly the maximum of the node's own line and
`_get_last_lineno` of every child reached through a direct field or a
list field: it bounds each of them and is attained by one of them. -/
theorem statementIndex_last_lineno (n : Node) (L0 : Int) (h : n.lineno = some L0) :
    L0 ≤ nodeLastLineno n ∧
      (∀ c ∈ childNodes n, getLastOf c ≤ nodeLastLineno n) ∧
      (nodeLastLineno n = L0 ∨ ∃ c ∈ childNodes n, nodeLastLineno n = getLastOf c) := by
  have hrw : nodeLastLineno n =
      (childFs n.fields).foldl (fun c sub => max c (getLastOf sub)) L0 := by
    unfold nodeLastLineno
    rw [llFields_eq_foldl, h]
    rfl
  refine ⟨?_, ?_, ?_⟩
  · rw [hrw]; exact foldl_max_init_le _ _ _
  · intro c hc
    rw [hrw]
    exact foldl_max_mem_le _ _ _ c hc
  · rw [hrw]
    exact foldl_max_eq_init_or_mem _ _ _

/-- An `if` statement on line 1 whose body statement sits on line 2. -/
def ifNodeEx : Node :=
  .mk "If"
    [("test", .node (nameNode "x")),
     ("body", .vlist [.node (.mk "Expr" [("value", .node (numNode 3))] (some (2, 4)))]),
     ("orelse", .vlist [])]
    (some (1, 0))

/-- Witness for C8: an `If` node on line 1 with a body statement on line 2
gets `last_lineno = 2 = max(1, 2)`. -/
theorem statementIndex_last_lineno_witness :
    (1 : Int) ≤ nodeLastLineno ifNodeEx ∧
      (∀ c ∈ childNodes ifNodeEx, getLastOf c ≤ nodeLastLineno ifNodeEx) ∧
      (nodeLastLineno ifNodeEx = 1 ∨
        ∃ c ∈ childNodes ifNodeEx, nodeLastLineno ifNodeEx = getLastOf c) :=
  statementIndex_last_lineno ifNodeEx 1 (by rfl)

/-! ## Dictionary lemmas -/

/-- The key list of a capture map, in insertion order. -/
def keysC (m : Captures) : List String := m.map (·.1)

theorem lookupFirst_overwrite_self (k : String) (v : Value) :
    ∀ m : Captures, m.any (fun p => p.1 = k) = true →
      lookupFirst (m.map (fun p => if p.1 = k then (k, v) else p)) k = some v := by
  intro m
  induction m with
  | nil => intro h; simp at h
  | cons p rest ih =>
    intro hany
    by_cases hp : p.1 = k
    · rw [List.map_cons, if_pos hp]
      simp [lookupFirst]
    · rw [List.map_cons, if_neg hp]
      have hr : rest.any (fun p => p.1 = k) = true := by
        simpa [List.any_cons, hp] using hany
      simp only [lookupFirst]
      rw [if_neg (fun h => hp h.symm)]
      exact ih hr

theorem lookupFirst_overwrite_ne (k k' : String) (v : Value) (hne : k' ≠ k) :
    ∀ m : Captures,
      lookupFirst (m.map (fun p => if p.1 = k then (k, v) else p)) k' =
        lookupFirst m k' := by
  intro m
  induction m with
  | nil => rfl
  | cons p rest ih =>
    by_cases hp : p.1 = k
    · rw [List.map_cons, if_pos hp]
      simp only [lookupFirst]
      rw [if_neg hne, if_neg (by rw [hp]; exact hne)]
      exact ih
    · rw [List.map_cons, if_neg hp]
      simp only [lookupFirst]
      by_cases hq : k' = p.1
      · rw [if_pos hq, if_pos hq]
      · rw [if_neg hq, if_neg hq]
        exact ih

theorem lookupFirst_append (m m₂ : Captures) (k : String) :
    lookupFirst (m ++ m₂) k =
      match lookupFirst m k with
      | some v => some v
      | none => lookupFirst m₂ k := by
  induction m with
  | nil => simp [lookupFirst]
  | cons p rest ih =>
    rw [List.cons_append]
    simp only [lookupFirst]
    by_cases hq : k = p.1
    · rw [if_pos hq, if_pos hq]
    · rw [if_neg hq, if_neg hq]
      exact ih

theorem lookupFirst_not_any_none (k : String) :
    ∀ m : Captures, ¬(m.any (fun p => p.1 = k)) = true → lookupFirst m k = none := by
  intro m
  induction m with
  | nil => intro _; rfl
  | cons p rest ih =>
    intro hany
    have hp : ¬p.1 = k := by
      intro he
      exact hany (by simp [List.any_cons, he])
    have hr : ¬rest.any (fun p => p.1 = k) = true := by
      intro he
      exact hany (by simp [List.any_cons, he])
    simp only [lookupFirst]
    rw [if_neg (fun h => hp h.symm)]
    exact ih hr

theorem dget_dinsert_self (m : Captures) (k : String) (v : Value) :
    dget (dinsert m k v) k = some v := by
  unfold dinsert dget
  by_cases hany : m.any (fun p => p.1 = k) = true
  · rw [if_pos hany]
    exact lookupFirst_overwrite_self k v m hany
  · rw [if_neg hany, lookupFirst_append, lookupFirst_not_any_none k m hany]
    simp [lookupFirst]

theorem dget_dinsert_ne (m : Captures) (k k' : String) (v : Value) (hne : k' ≠ k) :
    dget (dinsert m k v) k' = dget m k' := by
  unfold dinsert dget
  by_cases hany : m.any (fun p => p.1 = k) = true
  · rw [if_pos hany]
    exact lookupFirst_overwrite_ne k k' v hne m
  · rw [if_neg hany, lookupFirst_append]
    have h2 : lookupFirst [(k, v)] k' = none := by
      simp [lookupFirst, hne]
    rw [h2]
    cases lookupFirst m k' <;> rfl

theorem keysC_dinsert_any (m : Captures) (k : String) (v : Value)
    (hany : m.any (fun p => p.1 = k) = true) :
    keysC (dinsert m k v) = keysC m := by
  unfold dinsert keysC
  rw [if_pos hany, List.map_map]
  apply List.map_congr_left
  intro p _
  by_cases hp : p.1 = k
  · simp [hp]
  · simp [hp]

theorem keysC_dinsert_not_any (m : Captures) (k : String) (v : Value)
    (hany : ¬m.any (fun p => p.1 = k) = true) :
    keysC (dinsert m k v) = keysC m ++ [k] := by
  unfold dinsert keysC
  rw [if_neg hany]
  simp

theorem mem_keysC_dinsert (m : Captures) (k k' : String) (v : Value)
    (h : k' ∈ keysC (dinsert m k v)) : k' ∈ keysC m ∨ k' = k := by
  by_cases hany : m.any (fun p => p.1 = k) = true
  · rw [keysC_dinsert_any m k v hany] at h
    exact Or.inl h
  · rw [keysC_dinsert_not_any m k v hany] at h
    rcases List.mem_append.mp h with h | h
    · exact Or.inl h
    · simp at h
      exact Or.inr h

theorem dget_dupdate_not_mem (m sub : Captures) (k : String) (h : k ∉ keysC sub) :
    dget (dupdate m sub) k = dget m k := by
  induction sub generalizing m with
  | nil => rfl
  | cons q rest ih =>
    have hk : k ≠ q.1 := by
      intro he
      exact h (by simp [keysC, he])
    have hr : k ∉ keysC rest := fun hm => h (by simp [keysC] at hm ⊢; exact Or.inr hm)
    show dget (dupdate (dinsert m q.1 q.2) rest) k = dget m k
    rw [ih (dinsert m q.1 q.2) hr, dget_dinsert_ne m q.1 k q.2 hk]

theorem mem_keysC_dupdate (m sub : Captures) (k : String)
    (h : k ∈ keysC (dupdate m sub)) : k ∈ keysC m ∨ k ∈ keysC sub := by
  induction sub generalizing m with
  | nil => exact Or.inl h
  | cons q rest ih =>
    have h1 := ih (dinsert m q.1 q.2) h
    rcases h1 with h1 | h1
    · rcases mem_keysC_dinsert m q.1 k q.2 h1 with h2 | h2
      · exact Or.inl h2
      · exact Or.inr (by simp [keysC, h2])
    · exact Or.inr (by simp [keysC] at h1 ⊢; exact Or.inr h1)

/-! ## Placeholder names a pattern can bind -/

mutual

/-- The placeholder names `match_ast` can bind when matching the expected
node `n` (an over-approximation including every placeholder occurrence). -/
def phNamesN (n : Node) : List String :=
  if n.kind = "Name" then
    match nameIdStr n with
    | some s => if simpleRe s then [s] else phNamesFs n.fields
    | none => []
  else if n.kind = "Attribute" then
    (match getField n "attr" with
     | some (.scalar (.str s)) => if simpleRe s then [s] else []
     | _ => []) ++ phNamesFs n.fields
  else phNamesFs n.fields
termination_by (sizeOf n, 1)
decreasing_by all_goals exact Prod.Lex.left _ _ (sizeOf_fields_lt n)

/-- Placeholder names bindable through a field list. -/
def phNamesFs (fs : List (String × Value)) : List String :=
  match fs with
  | [] => []
  | (_, v) :: rest => phNamesV v ++ phNamesFs rest
termination_by (sizeOf fs, 0)

/-- Placeholder names bindable through a field value. -/
def phNamesV (v : Value) : List String :=
  match v with
  | .node n => phNamesN n
  | .vlist l => phNamesL l
  | .scalar _ => []
termination_by (sizeOf v, 2)

/-- Placeholder names bindable through a pattern list (elements plus a
variadic placeholder element's own name). -/
def phNamesL (l : List Value) : List String :=
  match l with
  | [] => []
  | v :: rest => phNamesElem v ++ phNamesL rest
termination_by (sizeOf l, 1)

/-- Names bindable at one list element: its variadic name (when it is a
variadic placeholder) and anything bindable inside it. -/
def phNamesElem (v : Value) : List String :=
  (match v with
   | .node n =>
     if n.kind = "Name" then
       match nameIdStr n with
       | some s => if variadicRe s then [s] else []
       | none => []
     else []
   | _ => []) ++ phNamesV v
termination_by (sizeOf v, 3)

end

/-! ## Supporting lemmas for the capture-domain property -/

theorem matchRaw_no_capture (x w : Value) (sub : Captures) :
    ¬matchRaw x w = .ok (some sub) := by
  unfold matchRaw
  split <;> first | simp | (split <;> simp)

theorem mem_phNamesFs_of_field {fs : List (String × Value)} {k : String} {v : Value}
    (hmem : (k, v) ∈ fs) {x : String} (hx : x ∈ phNamesV v) : x ∈ phNamesFs fs := by
  induction fs with
  | nil => simp at hmem
  | cons hd tl ih =>
    rcases List.mem_cons.mp hmem with h | h
    · subst h
      rw [phNamesFs]
      exact List.mem_append_left _ hx
    · obtain ⟨k', v'⟩ := hd
      rw [phNamesFs]
      exact List.mem_append_right _ (ih h)

theorem fieldsOf2_phNames (a b : Node) :
    ∀ en ∈ fieldsOf2 a b, ∀ x ∈ phNamesV en.2.1, x ∈ phNamesFs a.fields := by
  intro en hen x hx
  simp only [fieldsOf2, List.mem_map] at hen
  obtain ⟨k, _, rfl⟩ := hen
  simp only at hx
  cases hll : lookupLast a.fields k with
  | none =>
    rw [hll] at hx
    simp [phNamesV] at hx
  | some v =>
    rw [hll] at hx
    exact mem_phNamesFs_of_field (lookupLast_mem hll) hx

theorem mem_phNamesL_of_mem {l : List Value} {w : Value} (hw : w ∈ l)
    {x : String} (hx : x ∈ phNamesElem w) : x ∈ phNamesL l := by
  induction l with
  | nil => simp at hw
  | cons hd tl ih =>
    rcases List.mem_cons.mp hw with h | h
    · subst h
      rw [phNamesL]
      exact List.mem_append_left _ hx
    · rw [phNamesL]
      exact List.mem_append_right _ (ih h)

theorem phNamesV_sub_phNamesElem (v : Value) {x : String} (hx : x ∈ phNamesV v) :
    x ∈ phNamesElem v := by
  cases v with
  | node n =>
    rw [phNamesElem]
    exact List.mem_append_right _ hx
  | vlist l =>
    rw [phNamesElem]
    · exact List.mem_append_right _ hx
    · intro n h
      exact Value.noConfusion h
  | scalar s =>
    rw [phNamesElem]
    · exact List.mem_append_right _ hx
    · intro n h
      exact Value.noConfusion h

theorem variadicPointAux_some (l : List Value) :
    ∀ i acc p, variadicPointAux l i acc = .ok (some p) →
      acc = some p ∨ (i ≤ p ∧ ∃ w, l[p - i]? = some w ∧ isVarOk w = true) := by
  induction l with
  | nil =>
    intro i acc p h
    simp only [variadicPointAux] at h
    cases h
    exact Or.inl rfl
  | cons v rest ih =>
    intro i acc p h
    cases hvv : isVariadicEl v with
    | error e => simp [variadicPointAux, hvv] at h
    | ok b =>
      cases b with
      | true =>
        cases acc with
        | some j => simp [variadicPointAux, hvv] at h
        | none =>
          simp [variadicPointAux, hvv] at h
          rcases ih (i + 1) (some i) p h with h1 | ⟨hip, w, hw, hvw⟩
          · cases h1
            right
            exact ⟨le_refl _, v, by simp, by simp [isVarOk, hvv]⟩
          · right
            have hip2 : i ≤ p := by omega
            refine ⟨hip2, w, ?_, hvw⟩
            have hidx : p - i = (p - (i + 1)) + 1 := by omega
            rw [hidx, List.getElem?_cons_succ]
            exact hw
      | false =>
        simp [variadicPointAux, hvv] at h
        rcases ih (i + 1) acc p h with h1 | ⟨hip, w, hw, hvw⟩
        · exact Or.inl h1
        · right
          have hip2 : i ≤ p := by omega
          refine ⟨hip2, w, ?_, hvw⟩
          have hidx : p - i = (p - (i + 1)) + 1 := by omega
          rw [hidx, List.getElem?_cons_succ]
          exact hw

/-- If `_variadic_point` returns index `p`, the element at `p` is a
variadic placeholder. -/
theorem variadicPoint_some (l : List Value) (p : Nat)
    (h : variadicPoint l = .ok (some p)) :
    ∃ w, l[p]? = some w ∧ isVarOk w = true := by
  unfold variadicPoint at h
  rcases variadicPointAux_some l 0 none p h with h1 | ⟨_, w, hw, hv⟩
  · cases h1
  · rw [Nat.sub_zero] at hw
    exact ⟨w, hw, hv⟩

/-! ## The capture-domain lemma: a successful match binds only placeholder
names occurring in the expected tree -/

/-- The attribute placeholder name bound by the `Attribute` special case. -/
def attrPrefix (n : Node) : List String :=
  if n.kind = "Attribute" then
    match getField n "attr" with
    | some (.scalar (.str s)) => if simpleRe s then [s] else []
    | _ => []
  else []

theorem phNamesN_not_name (n : Node) (h : ¬n.kind = "Name") :
    phNamesN n = attrPrefix n ++ phNamesFs n.fields := by
  rw [phNamesN, if_neg h]
  unfold attrPrefix
  by_cases ha : n.kind = "Attribute"
  · rw [if_pos ha, if_pos ha]
  · rw [if_neg ha, if_neg ha]
    simp

theorem phNamesN_name_nonsimple (n : Node) (hk : n.kind = "Name") (s : String)
    (hid : nameIdStr n = some s) (hs : ¬simpleRe s = true) :
    phNamesN n = phNamesFs n.fields := by
  rw [phNamesN, if_pos hk, hid]
  simp [hs]

theorem phNamesV_node (n : Node) : phNamesV (.node n) = phNamesN n := by
  rw [phNamesV]

theorem phNamesV_vlist (l : List Value) : phNamesV (.vlist l) = phNamesL l := by
  rw [phNamesV]

theorem variadic_elem_name {vpn : Node} (hok : isVarOk (.node vpn) = true) {s : String}
    (hid : nameIdStr vpn = some s) : vpn.kind = "Name" ∧ variadicRe s = true := by
  by_cases hk : vpn.kind = "Name"
  · refine ⟨hk, ?_⟩
    cases hv : variadicRe s
    · have hel : isVariadicEl (.node vpn) = .ok false := by
        simp [isVariadicEl, hk, hid, hv]
      simp [isVarOk, hel] at hok
    · rfl
  · have hel : isVariadicEl (.node vpn) = .ok false := by
      simp [isVariadicEl, hk]
    simp [isVarOk, hel] at hok

theorem mem_phNamesElem_variadic {vpn : Node} {s : String} (hk : vpn.kind = "Name")
    (hid : nameIdStr vpn = some s) (hv : variadicRe s = true) :
    s ∈ phNamesElem (.node vpn) := by
  rw [phNamesElem]
  apply List.mem_append_left
  rw [if_pos hk, hid]
  simp [hv]

theorem mem_of_getElemOpt {l : List Value} {p : Nat} {w : Value}
    (h : l[p]? = some w) : w ∈ l := by
  induction l generalizing p with
  | nil => simp at h
  | cons v rest ih =>
    cases p with
    | zero =>
      simp at h
      subst h
      exact List.mem_cons_self _ _
    | succ q =>
      rw [List.getElem?_cons_succ] at h
      exact List.mem_cons_of_mem _ (ih h)

/-- Domain property for `matchAst`. -/
abbrev DomA (e : Node) (t : Value) : Prop :=
  ∀ sub, matchAst e t = .ok (some sub) → ∀ x ∈ keysC sub, x ∈ phNamesN e

/-- Domain property for `matchKind`. -/
abbrev DomK (e : Node) (t : Value) : Prop :=
  ∀ sub, matchKind e t = .ok (some sub) →
    ∀ x ∈ keysC sub, x ∈ attrPrefix e ++ phNamesFs e.fields

/-- Domain property for `matchFields`. -/
abbrev DomF (e : Node) (fps : List (String × Value × Value)) (acc : Captures)
    (h : ∀ x ∈ fps, sizeOf x.2.1 < sizeOf e) : Prop :=
  ∀ r, matchFields e fps acc h = .ok (some r) →
    ∀ x ∈ keysC r, x ∈ keysC acc ∨ ∃ en ∈ fps, x ∈ phNamesV en.2.1

/-- Domain property for `matchZip`. -/
abbrev DomZ (e : Node) (ps : List (Value × Value)) (acc : Captures)
    (h : ∀ x ∈ ps, sizeOf x.1 < sizeOf e) : Prop :=
  ∀ r, matchZip e ps acc h = .ok (some r) →
    ∀ x ∈ keysC r, x ∈ keysC acc ∨ ∃ pr ∈ ps, x ∈ phNamesElem pr.1

set_option maxHeartbeats 1000000 in
theorem match_domain_all :
    (∀ e t, DomA e t) ∧ (∀ e t, DomK e t) ∧
      (∀ e fps acc h, DomF e fps acc h) ∧ (∀ e ps acc h, DomZ e ps acc h) := by
  apply Pytat.matchAst.mutual_induct
  · intros
    intro sub hsub x hx
    revert hsub
    simp [matchAst, matchKind_eq, matchFields, matchZip, *]
  · intro e t hk s hid hs sub hsub x hx
    simp [matchAst, hk, hid, hs] at hsub
    subst hsub
    simp [keysC] at hx
    subst hx
    rw [phNamesN, if_pos hk, hid]
    simp [hs]
  · intro e t hk s hid hs ihK sub hsub x hx
    simp [matchAst, hk, hid, hs] at hsub
    have hx2 := ihK sub hsub x hx
    rw [phNamesN_name_nonsimple e hk s hid hs]
    have hA : attrPrefix e = [] := by
      unfold attrPrefix
      rw [hk]
      simp
    rw [hA] at hx2
    simpa using hx2
  · intro e t hk ihK sub hsub x hx
    simp [matchAst, hk] at hsub
    have hx2 := ihK sub hsub x hx
    rw [phNamesN_not_name e hk]
    exact hx2
  · intros
    intro sub hsub x hx
    revert hsub
    simp [matchAst, matchKind_eq, matchFields, matchZip, *]
  · intros
    intro sub hsub x hx
    revert hsub
    simp [matchAst, matchKind_eq, matchFields, matchZip, *]
    intro hc
    split at hc <;> simp at hc
  · intros
    intro sub hsub x hx
    revert hsub
    simp [matchAst, matchKind_eq, matchFields, matchZip, *]
    intro hc
    split at hc <;> simp at hc
  · intros
    intro sub hsub x hx
    revert hsub
    simp [matchAst, matchKind_eq, matchFields, matchZip, *]
    intro hc
    split at hc <;> simp at hc
  · intros
    intro sub hsub x hx
    revert hsub
    simp [matchAst, matchKind_eq, matchFields, matchZip, *]
    intro hc
    split at hc <;> simp at hc
  · intros
    intro sub hsub x hx
    revert hsub
    simp [matchAst, matchKind_eq, matchFields, matchZip, *]
  · intro e n hne hkA s hattr hs tv hgat tvv hgtv pv hgev sub hsubA hgev2 ihA
    intro sub2 hsub2 x hx
    simp [matchKind_eq, hne, hkA, hattr, hs, hgat, hgtv, hgev, hsubA] at hsub2
    rw [if_pos (show "Attribute" = n.kind by rw [← hkA]; exact not_not.mp hne)] at hsub2
    simp only [Except.ok.injEq, Option.some.injEq] at hsub2
    subst hsub2
    rcases mem_keysC_dupdate [(s, tv)] sub x hx with h1 | h1
    · have hxs : x = s := by simpa [keysC] using h1
      subst hxs
      apply List.mem_append_left
      unfold attrPrefix
      rw [if_pos hkA, hattr]
      simp [hs]
    · apply List.mem_append_right
      have hnames := ihA sub hsubA x h1
      exact mem_phNamesFs_of_field (lookupFirst_mem hgev)
        ((phNamesV_node pv).symm ▸ hnames)
  · intros
    intro sub hsub x hx
    revert hsub
    simp [matchAst, matchKind_eq, matchFields, matchZip, *]
    intro hc
    split at hc <;> simp at hc
  · intros
    intro sub hsub x hx
    revert hsub
    simp [matchAst, matchKind_eq, matchFields, matchZip, *]
  · intro e n hne hkA s hattr hs tv hgat tvv hgtv l hgev sub hraw
    exact absurd hraw (matchRaw_no_capture _ _ _)
  · intros
    intro sub hsub x hx
    revert hsub
    simp [matchAst, matchKind_eq, matchFields, matchZip, *]
    intro hc
    split at hc <;> simp at hc
  · intros
    intro sub hsub x hx
    revert hsub
    simp [matchAst, matchKind_eq, matchFields, matchZip, *]
  · intro e n hne hkA s hattr hs tv hgat tvv hgtv sc hgev sub hraw
    exact absurd hraw (matchRaw_no_capture _ _ _)
  · intro e n hne hkA s hattr hs ihF sub hsub x hx
    simp [matchKind_eq, hne, hkA, hattr, hs] at hsub
    rw [if_pos (show "Attribute" = n.kind by rw [← hkA]; exact not_not.mp hne)] at hsub
    rcases ihF sub hsub x hx with h1 | ⟨en, hen, hx2⟩
    · simp [keysC] at h1
    · exact List.mem_append_right _ (fieldsOf2_phNames e n en hen x hx2)
  · intros
    intro sub hsub x hx
    revert hsub
    simp [matchAst, matchKind_eq, matchFields, matchZip, *]
    intro hc
    split at hc <;> simp at hc
  · intros
    intro sub hsub x hx
    revert hsub
    simp [matchAst, matchKind_eq, matchFields, matchZip, *]
    intro hc
    split at hc <;> simp at hc
  · intro e n hne hkNA ihF sub hsub x hx
    simp [matchKind_eq, hne, hkNA] at hsub
    rcases ihF sub hsub x hx with h1 | ⟨en, hen, hx2⟩
    · simp [keysC] at h1
    · exact List.mem_append_right _ (fieldsOf2_phNames e n en hen x hx2)
  · intro e t hnn sub hsub x hx
    cases t with
    | node n => exact (hnn n rfl).elim
    | vlist l => simp [matchKind_eq] at hsub
    | scalar sc => simp [matchKind_eq] at hsub
  · intro e acc h _ r hr x hx
    simp only [matchFields] at hr
    simp only [Except.ok.injEq, Option.some.injEq] at hr
    subst hr
    exact Or.inl hx
  · intros
    intro sub hsub x hx
    revert hsub
    simp [matchAst, matchKind_eq, matchFields, matchZip, *]
  · intros
    intro sub hsub x hx
    revert hsub
    simp [matchAst, matchKind_eq, matchFields, matchZip, *]
  · intros
    intro sub hsub x hx
    revert hsub
    simp [matchAst, matchKind_eq, matchFields, matchZip, *]
  · intros
    intro sub hsub x hx
    revert hsub
    simp [matchAst, matchKind_eq, matchFields, matchZip, *]
  · intro e acc k rest l tl h hvp hlen sub hzip h1 h2 h3 ihZ ihF r hr x hx
    simp [matchFields, hvp, hlen, hzip] at hr
    rcases ihF r hr x hx with ha | ⟨en, hen, hx2⟩
    · rcases ihZ sub hzip x ha with hb | ⟨pr, hpr, hx3⟩
      · exact Or.inl hb
      · right
        refine ⟨(k, Value.vlist l, Value.vlist tl), List.mem_cons_self _ _, ?_⟩
        show x ∈ phNamesV (Value.vlist l)
        rw [phNamesV_vlist]
        exact mem_phNamesL_of_mem ((List.of_mem_zip hpr).1) hx3
    · exact Or.inr ⟨en, List.mem_cons_of_mem _ hen, hx2⟩
  · intros
    intro sub hsub x hx
    revert hsub
    simp [matchAst, matchKind_eq, matchFields, matchZip, *]
  · intros
    intro sub hsub x hx
    revert hsub
    simp [matchAst, matchKind_eq, matchFields, matchZip, *]
  · intros
    intro sub hsub x hx
    revert hsub
    simp [matchAst, matchKind_eq, matchFields, matchZip, *]
  · intros
    intro sub hsub x hx
    revert hsub
    simp [matchAst, matchKind_eq, matchFields, matchZip, *]
  · intros
    intro sub hsub x hx
    revert hsub
    simp [matchAst, matchKind_eq, matchFields, matchZip, *]
  · intro e acc k rest l tl h p hvp hlen sub1 hzip1 vpn hgetp s hids vlen acc2 err
      hzerr h1 h2 h3 ihZ1 ihZ2
    intro r hr x hx
    unfold_let vlen acc2 at hzerr
    revert hr
    simp [matchFields, hvp, hlen, hzip1, hgetp, hids, hzerr]
  · intro e acc k rest l tl h p hvp hlen sub1 hzip1 vpn hgetp s hids vlen acc2
      hznone h1 h2 h3 ihZ1 ihZ2
    intro r hr x hx
    unfold_let vlen acc2 at hznone
    revert hr
    simp [matchFields, hvp, hlen, hzip1, hgetp, hids, hznone]
  · intro e acc k rest l tl h p hvp hlen sub1 hzip1 vpn hgetp s hids vlen acc2 sub2
      hzip2 h1 h2 h3 ihZ1 ihZ2 ihF
    intro r hr x hx
    unfold_let vlen acc2 at hzip2 ihZ2
    simp [matchFields, hvp, hlen, hzip1, hgetp, hids, hzip2] at hr
    rcases ihF r hr x hx with ha | ⟨en, hen, hx2⟩
    · rcases ihZ2 sub2 hzip2 x ha with hb | ⟨pr, hpr, hx3⟩
      · rcases mem_keysC_dinsert sub1 s x _ hb with hc | hc
        · rcases ihZ1 sub1 hzip1 x hc with hd | ⟨pr, hpr, hx3⟩
          · exact Or.inl hd
          · right
            refine ⟨(k, Value.vlist l, Value.vlist tl), List.mem_cons_self _ _, ?_⟩
            show x ∈ phNamesV (Value.vlist l)
            rw [phNamesV_vlist]
            exact mem_phNamesL_of_mem (List.take_subset _ _ ((List.of_mem_zip hpr).1)) hx3
        · right
          refine ⟨(k, Value.vlist l, Value.vlist tl), List.mem_cons_self _ _, ?_⟩
          show x ∈ phNamesV (Value.vlist l)
          rw [phNamesV_vlist, hc]
          obtain ⟨w, hw, hok⟩ := variadicPoint_some l p hvp
          rw [hgetp] at hw
          injection hw with hw2
          subst hw2
          obtain ⟨hk2, hvr⟩ := variadic_elem_name hok hids
          exact mem_phNamesL_of_mem (mem_of_getElemOpt hgetp)
            (mem_phNamesElem_variadic hk2 hids hvr)
      · right
        refine ⟨(k, Value.vlist l, Value.vlist tl), List.mem_cons_self _ _, ?_⟩
        show x ∈ phNamesV (Value.vlist l)
        rw [phNamesV_vlist]
        exact mem_phNamesL_of_mem (List.drop_subset _ _ ((List.of_mem_zip hpr).1)) hx3
    · exact Or.inr ⟨en, List.mem_cons_of_mem _ hen, hx2⟩
  · intros
    intro sub hsub x hx
    revert hsub
    simp [matchAst, matchKind_eq, matchFields, matchZip, *]
  · intro e acc k vt rest l h0 h hne h1 h2
    intro r hr x hx
    cases vt with
    | node n => simp [matchFields] at hr
    | scalar sc => simp [matchFields] at hr
    | vlist tl => exact (hne tl h rfl HEq.rfl).elim
  · intros
    intro sub hsub x hx
    revert hsub
    simp [matchAst, matchKind_eq, matchFields, matchZip, *]
  · intros
    intro sub hsub x hx
    revert hsub
    simp [matchAst, matchKind_eq, matchFields, matchZip, *]
  · intro e acc k vt rest n h sub hsubA h1 h2 ihA ihF r hr x hx
    simp [matchFields, hsubA] at hr
    rcases ihF r hr x hx with ha | ⟨en, hen, hx2⟩
    · rcases mem_keysC_dupdate acc sub x ha with hb | hb
      · exact Or.inl hb
      · right
        refine ⟨(k, Value.node n, vt), List.mem_cons_self _ _, ?_⟩
        show x ∈ phNamesV (Value.node n)
        rw [phNamesV_node]
        exact ihA sub hsubA x hb
    · exact Or.inr ⟨en, List.mem_cons_of_mem _ hen, hx2⟩
  · intro e acc k rest sc h h1 h2 ihF r hr x hx
    simp [matchFields] at hr
    rcases ihF r hr x hx with ha | ⟨en, hen, hx2⟩
    · exact Or.inl ha
    · exact Or.inr ⟨en, List.mem_cons_of_mem _ hen, hx2⟩
  · intros
    intro sub hsub x hx
    revert hsub
    simp [matchAst, matchKind_eq, matchFields, matchZip, *]
  · intro e acc h _ r hr x hx
    simp only [matchZip] at hr
    simp only [Except.ok.injEq, Option.some.injEq] at hr
    subst hr
    exact Or.inl hx
  · intros
    intro sub hsub x hx
    revert hsub
    simp [matchAst, matchKind_eq, matchFields, matchZip, *]
  · intros
    intro sub hsub x hx
    revert hsub
    simp [matchAst, matchKind_eq, matchFields, matchZip, *]
  · intro e acc vvt rest n h sub hsubA h1 h2 ihA ihZ r hr x hx
    simp [matchZip, hsubA] at hr
    rcases ihZ r hr x hx with ha | ⟨pr, hpr, hx2⟩
    · rcases mem_keysC_dupdate acc sub x ha with hb | hb
      · exact Or.inl hb
      · right
        refine ⟨(Value.node n, vvt), List.mem_cons_self _ _, ?_⟩
        show x ∈ phNamesElem (Value.node n)
        apply phNamesV_sub_phNamesElem
        rw [phNamesV_node]
        exact ihA sub hsubA x hb
    · exact Or.inr ⟨pr, List.mem_cons_of_mem _ hpr, hx2⟩
  · intros
    intro sub hsub x hx
    revert hsub
    simp [matchAst, matchKind_eq, matchFields, matchZip, *]
  · intros
    intro sub hsub x hx
    revert hsub
    simp [matchAst, matchKind_eq, matchFields, matchZip, *]
  · intro e acc vvt rest l h sub hraw
    exact absurd hraw (matchRaw_no_capture _ _ _)
  · intros
    intro sub hsub x hx
    revert hsub
    simp [matchAst, matchKind_eq, matchFields, matchZip, *]
  · intros
    intro sub hsub x hx
    revert hsub
    simp [matchAst, matchKind_eq, matchFields, matchZip, *]
  · intro e acc vvt rest sc h sub hraw
    exact absurd hraw (matchRaw_no_capture _ _ _)

/-- A successful `match_ast` binds only placeholder names of the expected
tree. -/
theorem matchAst_domain {e : Node} {t : Value} {sub : Captures}
    (h : matchAst e t = .ok (some sub)) : ∀ x ∈ keysC sub, x ∈ phNamesN e :=
  match_domain_all.1 e t sub h

/-- `matchZip` only adds bindings for names of the expected elements. -/
theorem matchZip_domain {e : Node} {ps : List (Value × Value)} {acc : Captures}
    {hp : ∀ x ∈ ps, sizeOf x.1 < sizeOf e} {r : Captures}
    (h : matchZip e ps acc hp = .ok (some r)) :
    ∀ x ∈ keysC r, x ∈ keysC acc ∨ ∃ pr ∈ ps, x ∈ phNamesElem pr.1 :=
  match_domain_all.2.2.2 e ps acc hp r h

/-! ## Claim C1: variadic list matching -/

/-- `matchZip` never changes the value bound to a name that is not a
placeholder of any of its expected elements. -/
theorem matchZip_preserve (e : Node) (ps : List (Value × Value)) :
    ∀ acc h r, matchZip e ps acc h = .ok (some r) →
      ∀ x, (∀ pr ∈ ps, x ∉ phNamesElem pr.1) → dget r x = dget acc x := by
  induction ps with
  | nil =>
    intro acc h r hr x _
    simp only [matchZip, Except.ok.injEq, Option.some.injEq] at hr
    subst hr
    rfl
  | cons pr rest ih =>
    intro acc h r hr x hx
    obtain ⟨vve, vvt⟩ := pr
    cases vve with
    | node n =>
      cases hma : matchAst n vvt with
      | error err => simp [matchZip, hma] at hr
      | ok o =>
        cases o with
        | none => simp [matchZip, hma] at hr
        | some sub =>
          simp only [matchZip, hma] at hr
          have hrec := ih _ _ r hr x (fun q hq => hx q (List.mem_cons_of_mem _ hq))
          rw [hrec]
          apply dget_dupdate_not_mem
          intro hmem
          have hdom := matchAst_domain hma x hmem
          exact hx (.node n, vvt) (List.mem_cons_self _ _)
            (phNamesV_sub_phNamesElem _ ((phNamesV_node n).symm ▸ hdom))
    | vlist l =>
      cases hmr : matchRaw (.vlist l) vvt with
      | error err => simp [matchZip, hmr] at hr
      | ok o =>
        cases o with
        | none => simp [matchZip, hmr] at hr
        | some sub => exact absurd hmr (matchRaw_no_capture _ _ _)
    | scalar sc =>
      cases hmr : matchRaw (.scalar sc) vvt with
      | error err => simp [matchZip, hmr] at hr
      | ok o =>
        cases o with
        | none => simp [matchZip, hmr] at hr
        | some sub => exact absurd hmr (matchRaw_no_capture _ _ _)

/-- The boundary pattern list `[a, __1, b]` of the variadic example. -/
def c1pat : Node :=
  listNode [.node (nameNode "a"), .node (nameNode "__1"), .node (nameNode "b")]

/-- The two-element test list `[a, b]`. -/
def c1testShort : Node := listNode [.node (nameNode "a"), .node (nameNode "b")]

/-- Counterexample for C1: matching the pattern `[a, __1, b]` against the
two-element list `[a, b]` returns no match (`None`), instead of succeeding
with `__1` bound to the empty list as the claim states: line 295 of
`lib.py` rejects the match whenever `len(ve) > len(vt)`, so the variadic
placeholder can never capture zero elements. -/
theorem matchAst_variadic_boundary_no_match :
    matchAst c1pat (.node c1testShort) = .ok none := by
  simp [matchAst, matchKind, matchFields, matchZip, c1pat, c1testShort, listNode, nameNode,
    nameIdStr, getField, Node.kind, Node.fields, simpleRe, allDigits, fieldsOf2,
    keysOf, dedupFirst, lookupLast, variadicPoint, variadicPointAux, isVariadicEl,
    variadicRe, lookupFirst, List.filter, dupdate, dinsert]

/-- C1 (amended): matching a pattern list with a single variadic placeholder
at index `p` succeeds only when the whole pattern length (not the
non-variadic length) is at most the test length, and then the variadic name
is bound to exactly the `len(test) - (len(expected) - 1)` middle test
elements — always at least one — provided the variadic name does not recur
among the suffix pattern elements. -/
theorem matchFields_variadic_amended (e : Node) (k s : String) (l tl : List Value)
    (vpn : Node) (p : Nat) (acc r : Captures)
    (h : ∀ x ∈ [(k, Value.vlist l, Value.vlist tl)], sizeOf x.2.1 < sizeOf e)
    (hvp : variadicPoint l = .ok (some p))
    (hel : l[p]? = some (.node vpn))
    (hid : nameIdStr vpn = some s)
    (hnosuf : ∀ v ∈ l.drop (p + 1), s ∉ phNamesElem v)
    (hr : matchFields e [(k, Value.vlist l, Value.vlist tl)] acc h = .ok (some r)) :
    l.length ≤ tl.length ∧
      dget r s = some (.vlist ((tl.drop p).take (tl.length - l.length + 1))) ∧
      ((tl.drop p).take (tl.length - l.length + 1)).length = tl.length - (l.length - 1) := by
  have hp : p < l.length := by
    rcases List.getElem?_eq_some.mp hel with ⟨hlt, _⟩
    exact hlt
  simp only [matchFields, hvp] at hr
  by_cases hlen : l.length > tl.length
  · rw [if_pos hlen] at hr
    simp at hr
  · rw [if_neg hlen] at hr
    have hle : l.length ≤ tl.length := le_of_not_lt hlen
    refine ⟨hle, ?_, ?_⟩
    · split at hr
      · simp at hr
      · simp at hr
      · rename_i acc1 hz1
        rw [hel] at hr
        simp only [hid] at hr
        split at hr
        · simp at hr
        · simp at hr
        · rename_i acc3 hz2
          simp only [matchFields, Except.ok.injEq, Option.some.injEq] at hr
          subst hr
          have hpres := matchZip_preserve e _ _ _ _ hz2 s
            (fun q hq => hnosuf q.1 ((List.of_mem_zip hq).1))
          rw [hpres]
          exact dget_dinsert_self _ _ _
    · rw [List.length_take, List.length_drop]
      omega

/-- Concrete pattern elements for the C1 witness: `[a, __1, b]`. -/
def c1l : List Value := [.node (nameNode "a"), .node (nameNode "__1"), .node (nameNode "b")]

/-- Concrete test elements for the C1 witness: `[a, x, y, b]`. -/
def c1tl : List Value :=
  [.node (nameNode "a"), .node (nameNode "x"), .node (nameNode "y"), .node (nameNode "b")]

/-- An enclosing node for the C1 witness recursion bound. -/
def c1e : Node := .mk "List" [("elts", .vlist c1l), ("extra", .vlist c1tl)] none

theorem c1h : ∀ x ∈ [("elts", Value.vlist c1l, Value.vlist c1tl)],
    sizeOf x.2.1 < sizeOf c1e := by
  intro x hx
  rcases List.mem_singleton.mp hx with rfl
  show sizeOf (Value.vlist c1l) < sizeOf c1e
  have hm : ("elts", Value.vlist c1l) ∈ c1e.fields := by
    simp [c1e, Node.fields]
  exact sizeOf_of_mem_fields hm

theorem c1vp : variadicPoint c1l = .ok (some 1) := by
  simp [c1l, variadicPoint, variadicPointAux, isVariadicEl, nameNode, Node.kind,
    nameIdStr, getField, Node.fields, lookupFirst, variadicRe, allDigits]

theorem c1zPre (h : ∀ x ∈ (c1l.take 1).zip (c1tl.take 1), sizeOf x.1 < sizeOf c1e) :
    matchZip c1e ((c1l.take 1).zip (c1tl.take 1)) [] h = .ok (some []) := by
  simp [c1l, c1tl, matchZip, matchAst, matchKind, matchFields, nameNode, nameIdStr,
    getField, Node.kind, Node.fields, simpleRe, allDigits, fieldsOf2, keysOf,
    dedupFirst, lookupLast, variadicPoint, variadicPointAux, isVariadicEl,
    variadicRe, lookupFirst, List.filter, dupdate, dinsert]

theorem c1zSuf (acc : Captures)
    (h : ∀ x ∈ (c1l.drop (1 + 1)).zip (c1tl.drop (1 + (c1tl.length - c1l.length + 1))),
      sizeOf x.1 < sizeOf c1e) :
    matchZip c1e ((c1l.drop (1 + 1)).zip (c1tl.drop (1 + (c1tl.length - c1l.length + 1))))
      acc h = .ok (some acc) := by
  simp [c1l, c1tl, matchZip, matchAst, matchKind, matchFields, nameNode, nameIdStr,
    getField, Node.kind, Node.fields, simpleRe, allDigits, fieldsOf2, keysOf,
    dedupFirst, lookupLast, variadicPoint, variadicPointAux, isVariadicEl,
    variadicRe, lookupFirst, List.filter, dupdate, dinsert]

/-- Symbolic one-pass evaluation of `matchFields` on a single list field
with a variadic placeholder, given the outcomes of its two `matchZip`
sub-runs. -/
theorem matchFields_variadic_run (e : Node) (k s : String) (l tl : List Value)
    (vpn : Node) (p : Nat) (acc : Captures)
    (h : ∀ x ∈ [(k, Value.vlist l, Value.vlist tl)], sizeOf x.2.1 < sizeOf e)
    (hvp : variadicPoint l = .ok (some p))
    (hlen : ¬l.length > tl.length)
    (hel : l[p]? = some (.node vpn))
    (hid : nameIdStr vpn = some s)
    (acc1 : Captures)
    (hz1 : ∀ h1, matchZip e ((l.take p).zip (tl.take p)) acc h1 = .ok (some acc1))
    (r : Captures)
    (hz2 : ∀ h2, matchZip e
      ((l.drop (p + 1)).zip (tl.drop (p + (tl.length - l.length + 1))))
      (dinsert acc1 s (.vlist ((tl.drop p).take (tl.length - l.length + 1)))) h2 =
      .ok (some r)) :
    matchFields e [(k, Value.vlist l, Value.vlist tl)] acc h = .ok (some r) := by
  simp only [matchFields, hvp]
  rw [if_neg hlen]
  simp only [hz1]
  simp only [hel]
  simp only [hid]
  simp only [hz2]

/-- Stepwise evaluation of the C1 example: `[a, __1, b]` against
`[a, x, y, b]` matches and binds `__1` to `[x, y]`. -/
theorem c1hr : matchFields c1e [("elts", Value.vlist c1l, Value.vlist c1tl)] [] c1h =
    .ok (some [("__1", Value.vlist [.node (nameNode "x"), .node (nameNode "y")])]) := by
  have heq : (Except.ok (some (dinsert [] "__1"
        (Value.vlist ((c1tl.drop 1).take (c1tl.length - c1l.length + 1))))) :
        Except String (Option Captures)) =
      .ok (some [("__1", Value.vlist [.node (nameNode "x"), .node (nameNode "y")])]) := by
    simp [dinsert, c1l, c1tl]
  exact matchFields_variadic_run c1e "elts" "__1" c1l c1tl (nameNode "__1") 1 [] c1h
    c1vp (by decide) (by simp [c1l])
    (by simp [nameIdStr, nameNode, getField, Node.kind, Node.fields, lookupFirst])
    [] (fun h1 => c1zPre h1) _ (fun h2 => (c1zSuf _ h2).trans heq)

/-- Witness for the amended C1 theorem: `[a, __1, b]` against `[a, x, y, b]`
matches and binds `__1` to exactly the two middle elements `[x, y]`. -/
theorem matchFields_variadic_amended_witness :
    dget [("__1", Value.vlist [.node (nameNode "x"), .node (nameNode "y")])] "__1" =
        some (.vlist ((c1tl.drop 1).take (c1tl.length - c1l.length + 1))) ∧
      ((c1tl.drop 1).take (c1tl.length - c1l.length + 1)).length =
        c1tl.length - (c1l.length - 1) :=
  (matchFields_variadic_amended c1e "elts" "__1" c1l c1tl (nameNode "__1") 1 []
    [("__1", Value.vlist [.node (nameNode "x"), .node (nameNode "y")])] c1h
    c1vp
    (by simp [c1l])
    (by simp [nameNode, nameIdStr, getField, Node.kind, Node.fields, lookupFirst])
    (by
      intro v hv
      have hb : v = Value.node (nameNode "b") := by simpa [c1l] using hv
      subst hb
      simp [phNamesElem, phNamesV, phNamesN, phNamesFs, nameNode, nameIdStr, getField,
        Node.kind, Node.fields, lookupFirst, variadicRe, simpleRe, allDigits])
    c1hr).2

/-! ## Claim C5: in-place rewriting stages through a temporary file
(`visit_file`, `lib.py` lines 412-446) -/

/-- A file system: an association of file names to contents. -/
abbrev FS := List (String × String)

/-- `open(name).read()`. -/
def fsRead (fs : FS) (name : String) : Option String :=
  match fs with
  | [] => none
  | (n, c) :: rest => if name = n then some c else fsRead rest name

/-- Writing a file: overwrite an existing entry in place, else create it. -/
def fsWrite (fs : FS) (name content : String) : FS :=
  if fs.any (fun p => p.1 = name) then
    fs.map (fun p => if p.1 = name then (name, content) else p)
  else fs ++ [(name, content)]

/-- `os.unlink(name)`. -/
def fsUnlink (fs : FS) (name : String) : FS :=
  fs.filter (fun p => p.1 ≠ name)

/-- `os.rename(src, dst)`: `dst` receives `src`'s contents and `src` is
gone (no-op when `src` does not exist, a path the model never takes). -/
def fsRename (fs : FS) (src dst : String) : FS :=
  match fsRead fs src with
  | none => fs
  | some c => fsWrite (fsUnlink fs src) dst c

/-- `visit_file(filename, cls, inplace=True)` (lines 418, 431-440), with
the parsing/visiting pipeline abstracted: `parse` is the outcome of
`ast.parse` on the file's contents (line 419, raised before the temporary
file exists), and `run` is the outcome of `do_visit()` writing to
`visitor.out` — on success the full staged output, on failure the
exception message together with whatever partial output had already been
written to the temporary file. `tmp` is the fresh name handed out by
`tempfile.NamedTemporaryFile(dir=os.path.dirname(filename),
delete=False)`. On an exception from `do_visit` the `except` arm unlinks
the temporary and re-raises; otherwise the `else` arm renames it over the
original. -/
def visitFileInplace (fs : FS) (filename tmp : String)
    (parse : String → Except String Unit)
    (run : String → Except (String × String) String) : FS × Except String Unit :=
  match fsRead fs filename with
  | none => (fs, .error "FileNotFoundError")
  | some content =>
    match parse content with
    | .error e => (fs, .error e)
    | .ok () =>
      let fs1 := fsWrite fs tmp ""
      match run content with
      | .error (e, part) => (fsUnlink (fsWrite fs1 tmp part) tmp, .error e)
      | .ok out => (fsRename (fsWrite fs1 tmp out) tmp filename, .ok ())

theorem fsRead_map_write_ne (fs : FS) (n m c : String) (h : m ≠ n) :
    fsRead (fs.map (fun p => if p.1 = n then (n, c) else p)) m = fsRead fs m := by
  induction fs with
  | nil => rfl
  | cons q rest ih =>
    obtain ⟨qn, qc⟩ := q
    simp only [List.map_cons]
    by_cases hq : qn = n
    · subst hq
      rw [show (if ((qn, qc) : String × String).1 = qn then (qn, c) else (qn, qc)) =
        (qn, c) from if_pos rfl]
      simp only [fsRead]
      rw [if_neg h, if_neg h]
      exact ih
    · rw [show (if ((qn, qc) : String × String).1 = n then (n, c) else (qn, qc)) =
        (qn, qc) from if_neg hq]
      simp only [fsRead]
      by_cases hm : m = qn
      · rw [if_pos hm, if_pos hm]
      · rw [if_neg hm, if_neg hm]
        exact ih

theorem fsRead_append_ne (fs : FS) (n m c : String) (h : m ≠ n) :
    fsRead (fs ++ [(n, c)]) m = fsRead fs m := by
  induction fs with
  | nil => simp [fsRead, if_neg h]
  | cons q rest ih =>
    obtain ⟨qn, qc⟩ := q
    simp only [List.cons_append, fsRead]
    split
    · rfl
    · exact ih

theorem fsRead_write_ne (fs : FS) (n m c : String) (h : m ≠ n) :
    fsRead (fsWrite fs n c) m = fsRead fs m := by
  unfold fsWrite
  split
  · exact fsRead_map_write_ne fs n m c h
  · exact fsRead_append_ne fs n m c h

theorem fsRename_eq {fs : FS} {src : String} {c : String} (dst : String)
    (h : fsRead fs src = some c) :
    fsRename fs src dst = fsWrite (fsUnlink fs src) dst c := by
  unfold fsRename
  rw [h]

theorem fsRead_none_forall {fs : FS} {n : String} (h : fsRead fs n = none) :
    ∀ p ∈ fs, p.1 ≠ n := by
  induction fs with
  | nil => intro p hp; simp at hp
  | cons q rest ih =>
    obtain ⟨qn, qc⟩ := q
    intro p hp
    by_cases hq : n = qn
    · simp [fsRead, hq] at h
    · rcases List.mem_cons.mp hp with rfl | hp2
      · simpa using fun hc => hq hc.symm
      · simp only [fsRead, if_neg hq] at h
        exact ih h p hp2

theorem fsWrite_fresh {fs : FS} {n : String} (h : fsRead fs n = none) (c : String) :
    fsWrite fs n c = fs ++ [(n, c)] := by
  have hall := fsRead_none_forall h
  have hnot : ¬(fs.any (fun p => p.1 = n) = true) := by
    intro hany
    rw [List.any_eq_true] at hany
    obtain ⟨p, hp, hpn⟩ := hany
    exact hall p hp (by simpa using hpn)
  unfold fsWrite
  rw [if_neg hnot]

theorem map_write_append {fs : FS} {n : String} (h : ∀ p ∈ fs, p.1 ≠ n) (c c' : String) :
    (fs ++ [(n, c)]).map (fun p => if p.1 = n then (n, c') else p) = fs ++ [(n, c')] := by
  induction fs with
  | nil => simp
  | cons q rest ih =>
    simp only [List.cons_append, List.map_cons]
    rw [show (if q.1 = n then (n, c') else q) = q from
      if_neg (h q (List.mem_cons_self _ _))]
    rw [ih (fun p hp => h p (List.mem_cons_of_mem _ hp))]

theorem fsWrite_append_self {fs : FS} {n : String} (h : ∀ p ∈ fs, p.1 ≠ n)
    (c c' : String) : fsWrite (fs ++ [(n, c)]) n c' = fs ++ [(n, c')] := by
  have hpos : ((fs ++ [(n, c)]).any (fun p => p.1 = n)) = true := by
    rw [List.any_eq_true]
    exact ⟨(n, c), by simp, by simp⟩
  unfold fsWrite
  rw [if_pos hpos]
  exact map_write_append h c c'

theorem fsUnlink_append {fs : FS} {n : String} (h : ∀ p ∈ fs, p.1 ≠ n)
    (c : String) : fsUnlink (fs ++ [(n, c)]) n = fs := by
  unfold fsUnlink
  rw [List.filter_append]
  rw [List.filter_eq_self.mpr (fun p hp => by simpa using h p hp)]
  simp

theorem fsRead_append_self (fs : FS) {n : String} (h : ∀ p ∈ fs, p.1 ≠ n)
    (c : String) : fsRead (fs ++ [(n, c)]) n = some c := by
  induction fs with
  | nil => simp [fsRead]
  | cons q rest ih =>
    obtain ⟨qn, qc⟩ := q
    have hq : n ≠ qn := fun he => h (qn, qc) (List.mem_cons_self _ _) he.symm
    simp only [List.cons_append, fsRead, if_neg hq]
    exact ih (fun p hp => h p (List.mem_cons_of_mem _ hp))

/-- C5: on every failing path of in-place `visit_file` the file system is
restored — the temporary file is deleted and the original file's contents
are unchanged — while on success the original name is atomically replaced
by the full staged output, and no temporary file remains. -/
theorem visitFileInplace_atomic (fs : FS) (filename tmp : String)
    (parse : String → Except String Unit)
    (run : String → Except (String × String) String)
    (htf : tmp ≠ filename) (hfr : fsRead fs tmp = none) :
    (∀ e fs', visitFileInplace fs filename tmp parse run = (fs', .error e) →
      fs' = fs) ∧
    (∀ fs', visitFileInplace fs filename tmp parse run = (fs', .ok ()) →
      fsRead fs' tmp = none ∧
      ∃ content out, fsRead fs filename = some content ∧ run content = .ok out ∧
        fs' = fsWrite fs filename out) := by
  have hall := fsRead_none_forall hfr
  unfold visitFileInplace
  cases hgf : fsRead fs filename with
  | none =>
    constructor
    · intro e fs' hh
      simp at hh
      exact hh.1.symm
    · intro fs' hh
      simp at hh
  | some content =>
    constructor
    · intro e' fs' hh
      cases hp : parse content with
      | error eP =>
        simp only [hp, Prod.mk.injEq] at hh
        exact hh.1.symm
      | ok u =>
        obtain ⟨⟩ := u
        cases hrun : run content with
        | error ep =>
          obtain ⟨e, part⟩ := ep
          simp only [hp, hrun, Prod.mk.injEq] at hh
          rw [← hh.1]
          rw [fsWrite_fresh hfr, fsWrite_append_self hall, fsUnlink_append hall]
        | ok out =>
          simp only [hp, hrun] at hh
          simp at hh
    · intro fs' hh
      cases hp : parse content with
      | error eP =>
        simp only [hp] at hh
        simp at hh
      | ok u =>
        obtain ⟨⟩ := u
        cases hrun : run content with
        | error ep =>
          obtain ⟨e, part⟩ := ep
          simp only [hp, hrun] at hh
          simp at hh
        | ok out =>
          simp only [hp, hrun, Prod.mk.injEq] at hh
          rw [fsWrite_fresh hfr, fsWrite_append_self hall] at hh
          rw [fsRename_eq filename (fsRead_append_self fs hall out)] at hh
          rw [fsUnlink_append hall] at hh
          refine ⟨?_, content, out, rfl, hrun, hh.1.symm⟩
          rw [← hh.1]
          rw [fsRead_write_ne fs filename tmp out htf]
          exact hfr

/-- Witness for C5: a one-file file system rewritten in place; the staged
output replaces the original on success and no temporary remains. -/
theorem visitFileInplace_atomic_witness :
    fsRead [("a.py", "x = 1\n# done\n")] "tmp0" = none ∧
    ∃ content out, fsRead [("a.py", "x = 1\n")] "a.py" = some content ∧
      (fun c : String =>
        (Except.ok (c ++ "# done\n") : Except (String × String) String)) content =
        .ok out ∧
      ([("a.py", "x = 1\n# done\n")] : FS) = fsWrite [("a.py", "x = 1\n")] "a.py" out :=
  (visitFileInplace_atomic [("a.py", "x = 1\n")] "a.py" "tmp0" (fun _ => .ok ())
      (fun c => .ok (c ++ "# done\n")) (by decide) (by rfl)).2
    [("a.py", "x = 1\n# done\n")] (by rfl)

end Pytat
